import Mathlib

/-!
Verification of the stack composition engine of `claude-code-stacks`.

The development shallowly embeds the core subsystems of the repository:

* `src/core/settings_merger.rs` — recursive JSON merge (`deep_merge`);
* `src/core/permission_generator.rs` — permission-rule synthesis and its
  variant `deep_merge`;
* `src/core/symlink_manager.rs` — the symlink overlay manager
  (`create_symlink_with_prefix`, `create_symlinks_for_stack`,
  `remove_stack_symlinks`);
* `src/utils/claude_md_updater.rs` — the demarcated markdown import manager;
* `src/core/mcp_validator.rs` — capability-requirement parsing.

JSON values (`serde_json::Value`) are embedded as the inductive `Value`;
JSON numbers are modelled as integers, which is irrelevant to every theorem
below (only structural equality of numbers is ever used by the code under
verification).  Filesystem directories are modelled as association lists
from file names to entries, and path canonicalization as an explicit
partial function, since the code treats it as an oracle.
-/

namespace StackEngine

/-- Model of `serde_json::Value`: null, booleans, numbers, strings, arrays
and objects.  Objects are association lists in iteration order; the real
`serde_json::Map` never holds a duplicate key, which theorems track through
the well-formedness predicate `wfV` below. -/
inductive Value where
  | null
  | bool (b : Bool)
  | num (n : Int)
  | str (s : String)
  | arr (elems : List Value)
  | obj (entries : List (String × Value))

mutual

/-- Structural equality of JSON values, the `PartialEq` used by
`Vec::contains` in `deep_merge`'s array case. -/
def beqV : Value → Value → Bool
  | Value.null, Value.null => true
  | Value.bool a, Value.bool b => a == b
  | Value.num a, Value.num b => a == b
  | Value.str a, Value.str b => a == b
  | Value.arr a, Value.arr b => beqL a b
  | Value.obj a, Value.obj b => beqO a b
  | _, _ => false

/-- Structural equality of JSON arrays. -/
def beqL : List Value → List Value → Bool
  | [], [] => true
  | x :: xs, y :: ys => beqV x y && beqL xs ys
  | _, _ => false

/-- Structural equality of JSON objects (in iteration order). -/
def beqO : List (String × Value) → List (String × Value) → Bool
  | [], [] => true
  | (k1, v1) :: xs, (k2, v2) :: ys => k1 == k2 && beqV v1 v2 && beqO xs ys
  | _, _ => false

end

mutual

theorem beqV_iff : (a b : Value) → (beqV a b = true ↔ a = b)
  | Value.null, Value.null => by simp [beqV]
  | Value.bool _, Value.bool _ => by simp [beqV]
  | Value.num _, Value.num _ => by simp [beqV]
  | Value.str _, Value.str _ => by simp [beqV]
  | Value.arr a, Value.arr b => by simpa [beqV] using beqL_iff a b
  | Value.obj a, Value.obj b => by simpa [beqV] using beqO_iff a b
  | Value.null, Value.bool _ => by simp [beqV]
  | Value.null, Value.num _ => by simp [beqV]
  | Value.null, Value.str _ => by simp [beqV]
  | Value.null, Value.arr _ => by simp [beqV]
  | Value.null, Value.obj _ => by simp [beqV]
  | Value.bool _, Value.null => by simp [beqV]
  | Value.bool _, Value.num _ => by simp [beqV]
  | Value.bool _, Value.str _ => by simp [beqV]
  | Value.bool _, Value.arr _ => by simp [beqV]
  | Value.bool _, Value.obj _ => by simp [beqV]
  | Value.num _, Value.null => by simp [beqV]
  | Value.num _, Value.bool _ => by simp [beqV]
  | Value.num _, Value.str _ => by simp [beqV]
  | Value.num _, Value.arr _ => by simp [beqV]
  | Value.num _, Value.obj _ => by simp [beqV]
  | Value.str _, Value.null => by simp [beqV]
  | Value.str _, Value.bool _ => by simp [beqV]
  | Value.str _, Value.num _ => by simp [beqV]
  | Value.str _, Value.arr _ => by simp [beqV]
  | Value.str _, Value.obj _ => by simp [beqV]
  | Value.arr _, Value.null => by simp [beqV]
  | Value.arr _, Value.bool _ => by simp [beqV]
  | Value.arr _, Value.num _ => by simp [beqV]
  | Value.arr _, Value.str _ => by simp [beqV]
  | Value.arr _, Value.obj _ => by simp [beqV]
  | Value.obj _, Value.null => by simp [beqV]
  | Value.obj _, Value.bool _ => by simp [beqV]
  | Value.obj _, Value.num _ => by simp [beqV]
  | Value.obj _, Value.str _ => by simp [beqV]
  | Value.obj _, Value.arr _ => by simp [beqV]

theorem beqL_iff : (a b : List Value) → (beqL a b = true ↔ a = b)
  | [], [] => by simp [beqL]
  | [], _ :: _ => by simp [beqL]
  | _ :: _, [] => by simp [beqL]
  | x :: xs, y :: ys => by
      simp [beqL, Bool.and_eq_true, beqV_iff x y, beqL_iff xs ys]

theorem beqO_iff : (a b : List (String × Value)) → (beqO a b = true ↔ a = b)
  | [], [] => by simp [beqO]
  | [], _ :: _ => by simp [beqO]
  | _ :: _, [] => by simp [beqO]
  | (k1, v1) :: xs, (k2, v2) :: ys => by
      simp [beqO, Bool.and_eq_true, beqV_iff v1 v2, beqO_iff xs ys, and_assoc]

end

instance : DecidableEq Value := fun a b =>
  decidable_of_iff (beqV a b = true) (beqV_iff a b)

instance : BEq Value := ⟨beqV⟩

instance : LawfulBEq Value where
  eq_of_beq h := (beqV_iff _ _).mp h
  rfl := (beqV_iff _ _).mpr rfl

/-- First-match lookup in an association list: `serde_json::Map::get`
(a real map holds each key once, so first-match is exact). -/
def lookupA {α : Type} : List (String × α) → String → Option α
  | [], _ => none
  | (k, v) :: rest, key => if k = key then some v else lookupA rest key

/-- Replace the value stored at the first occurrence of a key:
the in-place write through `serde_json::Map::get_mut`. -/
def updateFirst {α : Type} : List (String × α) → String → α → List (String × α)
  | [], _, _ => []
  | (k, v) :: rest, key, newV =>
      if k = key then (k, newV) :: rest else (k, v) :: updateFirst rest key newV

/-- Array union from `settings_merger.rs` lines 86-93: push each source
item not already contained (structurally) in the growing target. -/
def arrayUnion (t s : List Value) : List Value :=
  s.foldl (fun acc x => if acc.contains x then acc else acc ++ [x]) t

mutual

/-- `deep_merge` from `src/core/settings_merger.rs` lines 70-99:
objects merge key-wise (keys only in source are inserted, keys in both
recurse), arrays take the union `arrayUnion`, and any other pairing is
replaced by the source value. -/
def deepMerge : Value → Value → Value
  | Value.obj t, Value.obj s => Value.obj (mergeObj t s)
  | Value.arr t, Value.arr s => Value.arr (arrayUnion t s)
  | _, s => s
termination_by _a b => sizeOf b

/-- The object loop of `deep_merge` (settings merger): iterate the source
entries, merging into the present target value or inserting. -/
def mergeObj (t : List (String × Value)) : List (String × Value) → List (String × Value)
  | [] => t
  | (k, v) :: rest =>
    match lookupA t k with
    | some old => mergeObj (updateFirst t k (deepMerge old v)) rest
    | none => mergeObj (t ++ [(k, v)]) rest
termination_by s => sizeOf s

end

mutual

/-- `deep_merge` from `src/core/permission_generator.rs` lines 102-132:
for object keys present in both sides, only the key `permissions` recurses;
every other key is replaced wholesale by the source value.  Arrays reached
by the recursion are replaced entirely by the source array. -/
def pgDeepMerge : Value → Value → Value
  | Value.obj t, Value.obj s => Value.obj (pgMergeObj t s)
  | Value.arr _, Value.arr s => Value.arr s
  | _, s => s
termination_by _a b => sizeOf b

/-- The object loop of the permission generator's `deep_merge`. -/
def pgMergeObj (t : List (String × Value)) : List (String × Value) → List (String × Value)
  | [] => t
  | (k, v) :: rest =>
    match lookupA t k with
    | some old =>
        if k = "permissions" then pgMergeObj (updateFirst t k (pgDeepMerge old v)) rest
        else pgMergeObj (updateFirst t k v) rest
    | none => pgMergeObj (t ++ [(k, v)]) rest
termination_by s => sizeOf s

end

/-- Keys of an object in iteration order. -/
def keysOf {α : Type} (m : List (String × α)) : List String := m.map Prod.fst

mutual

/-- Well-formedness of an embedded JSON value: every object (at any depth)
holds each key at most once.  Every value representable by
`serde_json::Value` satisfies this, because `serde_json::Map` is a map. -/
def wfV : Value → Bool
  | Value.arr xs => wfL xs
  | Value.obj m => decide (keysOf m).Nodup && wfO m
  | _ => true

/-- Well-formedness of each element of an array. -/
def wfL : List Value → Bool
  | [] => true
  | x :: xs => wfV x && wfL xs

/-- Well-formedness of each value of an object. -/
def wfO : List (String × Value) → Bool
  | [] => true
  | (_, v) :: rest => wfV v && wfO rest

end

/-! ### Association-list and sizeOf facts -/

theorem sizeOf_val_lt_obj {k : String} {v : Value} {m : List (String × Value)}
    (h : (k, v) ∈ m) : sizeOf v < sizeOf (Value.obj m) := by
  have h1 := List.sizeOf_lt_of_mem h
  simp only [Prod.mk.sizeOf_spec, Value.obj.sizeOf_spec] at h1 ⊢
  omega

theorem lookupA_append {α : Type} (t s : List (String × α)) (k : String) :
    lookupA (t ++ s) k =
      match lookupA t k with
      | some v => some v
      | none => lookupA s k := by
  induction t with
  | nil => simp [lookupA]
  | cons p rest ih =>
      obtain ⟨k', v'⟩ := p
      by_cases h : k' = k <;> simp [lookupA, h, ih]

theorem lookupA_eq_none_iff {α : Type} {t : List (String × α)} {k : String} :
    lookupA t k = none ↔ k ∉ keysOf t := by
  induction t with
  | nil => simp [lookupA, keysOf]
  | cons p rest ih =>
      obtain ⟨k', v'⟩ := p
      by_cases h : k' = k <;> simp [lookupA, h, keysOf, ih] <;> tauto

theorem lookupA_mem {α : Type} {t : List (String × α)} {k : String} {v : α}
    (h : lookupA t k = some v) : (k, v) ∈ t := by
  induction t with
  | nil => simp [lookupA] at h
  | cons p rest ih =>
      obtain ⟨k', v'⟩ := p
      by_cases hk : k' = k
      · subst hk
        simp [lookupA] at h
        simp [h]
      · simp [lookupA, hk] at h
        exact List.mem_cons_of_mem _ (ih h)

theorem lookupA_of_mem_nodup {α : Type} {t : List (String × α)} {k : String} {v : α}
    (hnd : (keysOf t).Nodup) (h : (k, v) ∈ t) : lookupA t k = some v := by
  induction t with
  | nil => simp at h
  | cons p rest ih =>
      obtain ⟨k', v'⟩ := p
      simp only [keysOf, List.map_cons, List.nodup_cons] at hnd
      rcases List.mem_cons.mp h with heq | hmem
      · cases heq
        simp [lookupA]
      · have hne : k' ≠ k := by
          intro hkk
          subst hkk
          exact hnd.1 (List.mem_map.mpr ⟨(k', v), hmem, rfl⟩)
        simpa [lookupA, hne] using ih hnd.2 hmem

theorem lookupA_updateFirst_self {α : Type} {t : List (String × α)} {k : String}
    {old w : α} (h : lookupA t k = some old) :
    lookupA (updateFirst t k w) k = some w := by
  induction t with
  | nil => simp [lookupA] at h
  | cons p rest ih =>
      obtain ⟨k', v'⟩ := p
      by_cases hk : k' = k
      · simp [lookupA, updateFirst, hk]
      · simp only [lookupA, hk, if_false] at h
        simp [updateFirst, lookupA, hk, ih h]

theorem lookupA_updateFirst_ne {α : Type} {t : List (String × α)} {k k' : String}
    {w : α} (h : k' ≠ k) : lookupA (updateFirst t k w) k' = lookupA t k' := by
  induction t with
  | nil => simp [updateFirst]
  | cons p rest ih =>
      obtain ⟨k0, v0⟩ := p
      by_cases hk : k0 = k
      · subst hk
        simp [updateFirst, lookupA, Ne.symm h]
      · by_cases hk' : k0 = k' <;> simp [updateFirst, lookupA, hk, hk', h, ih]

theorem updateFirst_eq_self {α : Type} {t : List (String × α)} {k : String} {w : α}
    (h : lookupA t k = some w) : updateFirst t k w = t := by
  induction t with
  | nil => rfl
  | cons p rest ih =>
      obtain ⟨k', v'⟩ := p
      by_cases hk : k' = k
      · subst hk
        simp [lookupA] at h
        simp [updateFirst, h]
      · simp only [lookupA, hk, if_false] at h
        simp [updateFirst, hk, ih h]

theorem keysOf_updateFirst {α : Type} (t : List (String × α)) (k : String) (w : α) :
    keysOf (updateFirst t k w) = keysOf t := by
  induction t with
  | nil => rfl
  | cons p rest ih =>
      obtain ⟨k', v'⟩ := p
      by_cases hk : k' = k <;> simp [updateFirst, hk, keysOf] at ih ⊢ <;> exact ih

theorem keysOf_append {α : Type} (t s : List (String × α)) :
    keysOf (t ++ s) = keysOf t ++ keysOf s := by
  simp [keysOf]

theorem mem_updateFirst {α : Type} {t : List (String × α)} {k : String} {w : α}
    {p : String × α} (h : p ∈ updateFirst t k w) : p ∈ t ∨ p = (k, w) := by
  induction t with
  | nil => simp [updateFirst] at h
  | cons q rest ih =>
      obtain ⟨k', v'⟩ := q
      by_cases hk : k' = k
      · subst hk
        rcases List.mem_cons.mp (by simpa [updateFirst] using h) with heq | hmem
        · right; exact heq
        · left; exact List.mem_cons_of_mem _ hmem
      · rcases List.mem_cons.mp (by simpa [updateFirst, hk] using h) with heq | hmem
        · left; simp [heq]
        · rcases ih hmem with h1 | h1
          · left; exact List.mem_cons_of_mem _ h1
          · right; exact h1

/-! ### arrayUnion facts -/

theorem arrayUnion_nil (t : List Value) : arrayUnion t [] = t := rfl

theorem arrayUnion_cons (t : List Value) (x : Value) (s : List Value) :
    arrayUnion t (x :: s) = arrayUnion (if x ∈ t then t else t ++ [x]) s := by
  by_cases h : x ∈ t <;>
    simp only [arrayUnion, List.foldl_cons, List.contains, List.elem_iff, h,
      if_true, if_false, decide_True, decide_False]

theorem arrayUnion_mem {t s : List Value} {x : Value} :
    x ∈ arrayUnion t s ↔ x ∈ t ∨ x ∈ s := by
  induction s generalizing t with
  | nil => simp [arrayUnion_nil]
  | cons y ys ih =>
      rw [arrayUnion_cons]
      by_cases hy : y ∈ t
      · simp only [if_pos hy, ih]
        constructor
        · rintro (h | h)
          · exact Or.inl h
          · exact Or.inr (List.mem_cons_of_mem _ h)
        · rintro (h | h)
          · exact Or.inl h
          · rcases List.mem_cons.mp h with rfl | h
            · exact Or.inl hy
            · exact Or.inr h
      · simp only [if_neg hy, ih, List.mem_append, List.mem_singleton, List.mem_cons]
        tauto

theorem arrayUnion_eq_self_of_sub {t s : List Value} (h : ∀ x ∈ s, x ∈ t) :
    arrayUnion t s = t := by
  induction s generalizing t with
  | nil => rfl
  | cons y ys ih =>
      rw [arrayUnion_cons, if_pos (h y (List.mem_cons_self y ys))]
      exact ih fun x hx => h x (List.mem_cons_of_mem _ hx)

theorem arrayUnion_idem (t a : List Value) :
    arrayUnion (arrayUnion t a) a = arrayUnion t a := by
  exact arrayUnion_eq_self_of_sub fun x hx => arrayUnion_mem.mpr (Or.inr hx)

theorem arrayUnion_nodup {t : List Value} (s : List Value) (h : t.Nodup) :
    (arrayUnion t s).Nodup := by
  induction s generalizing t with
  | nil => exact h
  | cons y ys ih =>
      rw [arrayUnion_cons]
      by_cases hy : y ∈ t
      · simpa [hy] using ih h
      · rw [if_neg hy]
        exact ih (by simp [List.nodup_append, h, hy])

/-- The elements of the source array that the union appends after the
target: each source element not already present, deduplicated against the
growing target (`settings_merger.rs` lines 87-92). -/
def newFrom (t : List Value) : List Value → List Value
  | [] => []
  | x :: xs => if x ∈ t then newFrom t xs else x :: newFrom (t ++ [x]) xs

theorem arrayUnion_eq_append (s t : List Value) :
    arrayUnion t s = t ++ newFrom t s := by
  induction s generalizing t with
  | nil => simp [arrayUnion_nil, newFrom]
  | cons y ys ih =>
      rw [arrayUnion_cons]
      by_cases hy : y ∈ t
      · simp [newFrom, hy, ih]
      · simp [newFrom, hy, ih]

/-! ### Well-formedness facts -/

theorem wfO_iff {l : List (String × Value)} :
    wfO l = true ↔ ∀ p ∈ l, wfV p.2 = true := by
  induction l with
  | nil => simp [wfO]
  | cons p rest ih =>
      obtain ⟨k, v⟩ := p
      simp [wfO, ih]

theorem wfL_iff {l : List Value} : wfL l = true ↔ ∀ x ∈ l, wfV x = true := by
  induction l with
  | nil => simp [wfL]
  | cons x xs ih => simp [wfL, ih]

theorem wfV_obj_iff {m : List (String × Value)} :
    wfV (Value.obj m) = true ↔ (keysOf m).Nodup ∧ wfO m = true := by
  simp [wfV]

theorem wfV_arr_iff {xs : List Value} :
    wfV (Value.arr xs) = true ↔ wfL xs = true := by
  simp [wfV]

/-! ### mergeObj stepping facts -/

theorem mergeObj_nil (t : List (String × Value)) : mergeObj t [] = t := by
  simp [mergeObj]

theorem mergeObj_cons_some {t : List (String × Value)} {k : String} {old : Value}
    (v : Value) (rest : List (String × Value)) (h : lookupA t k = some old) :
    mergeObj t ((k, v) :: rest) = mergeObj (updateFirst t k (deepMerge old v)) rest := by
  simp [mergeObj, h]

theorem mergeObj_cons_none {t : List (String × Value)} {k : String}
    (v : Value) (rest : List (String × Value)) (h : lookupA t k = none) :
    mergeObj t ((k, v) :: rest) = mergeObj (t ++ [(k, v)]) rest := by
  simp [mergeObj, h]

theorem not_mem_keysOf {α : Type} {t : List (String × α)} {k : String}
    (h : k ∉ keysOf t) (v : α) : (k, v) ∉ t :=
  fun hm => h (List.mem_map.mpr ⟨(k, v), hm, rfl⟩)

theorem keysOf_append_single_nodup {α : Type} {t : List (String × α)} {k : String}
    (v : α) (hnd : (keysOf t).Nodup) (hnot : k ∉ keysOf t) :
    (keysOf (t ++ [(k, v)])).Nodup := by
  rw [keysOf_append]
  refine List.Nodup.append hnd ?_ ?_
  · simp [keysOf]
  · intro x hx hx'
    have hxk : x = k := by simpa [keysOf] using hx'
    subst hxk
    exact hnot hx

theorem lookupA_mergeObj_not_mem {s t : List (String × Value)} {k : String}
    (h : k ∉ keysOf s) : lookupA (mergeObj t s) k = lookupA t k := by
  induction s generalizing t with
  | nil => simp [mergeObj]
  | cons p rest ih =>
      obtain ⟨k', v'⟩ := p
      have hk : k' ≠ k := by
        intro he
        subst he
        simp [keysOf] at h
      have hrest : k ∉ keysOf rest := by
        simp only [keysOf, List.map_cons, List.mem_cons] at h
        tauto
      cases hl : lookupA t k' with
      | some old =>
          rw [mergeObj_cons_some v' rest hl, ih hrest,
            lookupA_updateFirst_ne (Ne.symm hk)]
      | none =>
          rw [mergeObj_cons_none v' rest hl, ih hrest, lookupA_append]
          cases lookupA t k <;> simp [lookupA, hk]

theorem keysOf_mergeObj_nodup {s t : List (String × Value)}
    (h : (keysOf t).Nodup) : (keysOf (mergeObj t s)).Nodup := by
  induction s generalizing t with
  | nil => simpa [mergeObj] using h
  | cons p rest ih =>
      obtain ⟨k, v⟩ := p
      cases hl : lookupA t k with
      | some old =>
          rw [mergeObj_cons_some v rest hl]
          exact ih (by rwa [keysOf_updateFirst])
      | none =>
          rw [mergeObj_cons_none v rest hl]
          exact ih (keysOf_append_single_nodup v h (lookupA_eq_none_iff.mp hl))

theorem mergeObj_wf {s : List (String × Value)}
    (hIH : ∀ k v, (k, v) ∈ s → ∀ a, wfV a = true → wfV v = true →
      wfV (deepMerge a v) = true) :
    ∀ t, (keysOf t).Nodup → wfO t = true → wfO s = true →
      wfO (mergeObj t s) = true := by
  induction s with
  | nil =>
      intro t _ hwt _
      simpa [mergeObj] using hwt
  | cons p rest ih =>
      intro t hnd hwt hws
      obtain ⟨k, v⟩ := p
      have hws' : wfV v = true ∧ wfO rest = true := by simpa [wfO] using hws
      have hIH' : ∀ k' v', (k', v') ∈ rest → ∀ a, wfV a = true → wfV v' = true →
          wfV (deepMerge a v') = true :=
        fun k' v' hm => hIH k' v' (List.mem_cons_of_mem _ hm)
      cases hl : lookupA t k with
      | some old =>
          rw [mergeObj_cons_some v rest hl]
          have hwold : wfV old = true := wfO_iff.mp hwt _ (lookupA_mem hl)
          refine ih hIH' _ (by rwa [keysOf_updateFirst]) ?_ hws'.2
          rw [wfO_iff]
          intro q hq
          rcases mem_updateFirst hq with h1 | h1
          · exact wfO_iff.mp hwt _ h1
          · rw [h1]
            exact hIH k v (List.mem_cons_self _ _) old hwold hws'.1
      | none =>
          rw [mergeObj_cons_none v rest hl]
          have hnot : k ∉ keysOf t := lookupA_eq_none_iff.mp hl
          refine ih hIH' _ (keysOf_append_single_nodup v hnd hnot) ?_ hws'.2
          · rw [wfO_iff]
            intro q hq
            rcases List.mem_append.mp hq with h1 | h1
            · exact wfO_iff.mp hwt _ h1
            · rcases List.mem_singleton.mp h1 with rfl
              exact hws'.1

/-- Shape analysis of `deep_merge` (settings merger): the three arms of the
Rust `match`. -/
theorem deepMerge_shape (a b : Value) :
    (∃ t s, a = Value.obj t ∧ b = Value.obj s ∧
      deepMerge a b = Value.obj (mergeObj t s)) ∨
    (∃ t s, a = Value.arr t ∧ b = Value.arr s ∧
      deepMerge a b = Value.arr (arrayUnion t s)) ∨
    deepMerge a b = b := by
  cases a <;> cases b <;> simp [deepMerge]

theorem sizeOf_value_pos (b : Value) : 0 < sizeOf b := by
  cases b <;> simp

theorem wf_deepMerge_rec :
    ∀ (n : Nat) (b a : Value), sizeOf b ≤ n → wfV a = true → wfV b = true →
      wfV (deepMerge a b) = true := by
  intro n
  induction n with
  | zero =>
      intro b a hle _ _
      exact absurd hle (by have := sizeOf_value_pos b; omega)
  | succ n ih =>
      intro b a hle ha hb
      rcases deepMerge_shape a b with ⟨t, s, rfl, rfl, heq⟩ | ⟨t, s, rfl, rfl, heq⟩ | heq
      · rw [heq]
        rw [wfV_obj_iff] at ha hb ⊢
        refine ⟨keysOf_mergeObj_nodup ha.1, ?_⟩
        refine mergeObj_wf ?_ t ha.1 ha.2 hb.2
        intro k v hkv a' ha' hv'
        have hlt : sizeOf v < sizeOf (Value.obj s) := sizeOf_val_lt_obj hkv
        exact ih v a' (by omega) ha' hv'
      · rw [heq]
        rw [wfV_arr_iff] at ha hb ⊢
        rw [wfL_iff] at ha hb ⊢
        intro x hx
        rcases arrayUnion_mem.mp hx with h1 | h1
        · exact ha x h1
        · exact hb x h1
      · rw [heq]
        exact hb

theorem wf_deepMerge (b a : Value) (ha : wfV a = true) (hb : wfV b = true) :
    wfV (deepMerge a b) = true :=
  wf_deepMerge_rec (sizeOf b) b a le_rfl ha hb

theorem mergeObj_self_aux :
    ∀ (s t : List (String × Value)),
      (∀ k v, (k, v) ∈ s → lookupA t k = some v ∧ deepMerge v v = v) →
      mergeObj t s = t := by
  intro s
  induction s with
  | nil =>
      intro t _
      simp [mergeObj]
  | cons p rest ih =>
      intro t h
      obtain ⟨k, v⟩ := p
      obtain ⟨hl, hm⟩ := h k v (List.mem_cons_self _ _)
      rw [mergeObj_cons_some v rest hl, hm, updateFirst_eq_self hl]
      exact ih t fun k' v' hm' => h k' v' (List.mem_cons_of_mem _ hm')

theorem dm_self_rec :
    ∀ (n : Nat) (b : Value), sizeOf b ≤ n → wfV b = true → deepMerge b b = b := by
  intro n
  induction n with
  | zero =>
      intro b hle _
      exact absurd hle (by have := sizeOf_value_pos b; omega)
  | succ n ih =>
      intro b hle hb
      cases b with
      | obj m =>
          have h1 : deepMerge (Value.obj m) (Value.obj m) = Value.obj (mergeObj m m) := by
            simp [deepMerge]
          rw [h1]
          rw [wfV_obj_iff] at hb
          congr 1
          apply mergeObj_self_aux
          intro k v hkv
          have hlt : sizeOf v < sizeOf (Value.obj m) := sizeOf_val_lt_obj hkv
          exact ⟨lookupA_of_mem_nodup hb.1 hkv,
            ih v (by omega) (wfO_iff.mp hb.2 (k, v) hkv)⟩
      | arr xs =>
          have h1 : deepMerge (Value.arr xs) (Value.arr xs)
              = Value.arr (arrayUnion xs xs) := by simp [deepMerge]
          rw [h1]
          congr 1
          exact arrayUnion_eq_self_of_sub fun x hx => hx
      | null => simp [deepMerge]
      | bool c => simp [deepMerge]
      | num m => simp [deepMerge]
      | str s => simp [deepMerge]

/-- Merging a well-formed value into itself is the identity. -/
theorem dm_self (b : Value) (hb : wfV b = true) : deepMerge b b = b :=
  dm_self_rec (sizeOf b) b le_rfl hb

theorem mergeObj_idem_aux :
    ∀ (s t : List (String × Value)),
      (∀ k v, (k, v) ∈ s → ∀ a, wfV a = true → wfV v = true →
        deepMerge (deepMerge a v) v = deepMerge a v) →
      (keysOf s).Nodup → wfO s = true → (keysOf t).Nodup → wfO t = true →
      mergeObj (mergeObj t s) s = mergeObj t s := by
  intro s
  induction s with
  | nil =>
      intro t _ _ _ _ _
      simp [mergeObj]
  | cons p rest ih =>
      intro t hIH hndS hwfS hndT hwfT
      obtain ⟨k, v⟩ := p
      have hknotin : k ∉ keysOf rest := by
        simp only [keysOf, List.map_cons, List.nodup_cons] at hndS
        exact hndS.1
      have hndRest : (keysOf rest).Nodup := by
        simp only [keysOf, List.map_cons, List.nodup_cons] at hndS
        exact hndS.2
      have hwfv : wfV v = true ∧ wfO rest = true := by simpa [wfO] using hwfS
      have hIH' : ∀ k' v', (k', v') ∈ rest → ∀ a, wfV a = true → wfV v' = true →
          deepMerge (deepMerge a v') v' = deepMerge a v' :=
        fun k' v' hm => hIH k' v' (List.mem_cons_of_mem _ hm)
      cases hl : lookupA t k with
      | some old =>
          have hwold : wfV old = true := wfO_iff.mp hwfT _ (lookupA_mem hl)
          have hacc_nd : (keysOf (updateFirst t k (deepMerge old v))).Nodup := by
            rwa [keysOf_updateFirst]
          have hacc_wf : wfO (updateFirst t k (deepMerge old v)) = true := by
            rw [wfO_iff]
            intro q hq
            rcases mem_updateFirst hq with h1 | h1
            · exact wfO_iff.mp hwfT _ h1
            · rw [h1]
              exact wf_deepMerge v old hwold hwfv.1
          have hlookB : lookupA (mergeObj (updateFirst t k (deepMerge old v)) rest) k
              = some (deepMerge old v) := by
            rw [lookupA_mergeObj_not_mem hknotin, lookupA_updateFirst_self hl]
          have hdm : deepMerge (deepMerge old v) v = deepMerge old v :=
            hIH k v (List.mem_cons_self _ _) old hwold hwfv.1
          calc mergeObj (mergeObj t ((k, v) :: rest)) ((k, v) :: rest)
              = mergeObj (mergeObj (updateFirst t k (deepMerge old v)) rest)
                  ((k, v) :: rest) := by rw [mergeObj_cons_some v rest hl]
            _ = mergeObj
                  (updateFirst (mergeObj (updateFirst t k (deepMerge old v)) rest) k
                    (deepMerge (deepMerge old v) v)) rest :=
                mergeObj_cons_some v rest hlookB
            _ = mergeObj
                  (updateFirst (mergeObj (updateFirst t k (deepMerge old v)) rest) k
                    (deepMerge old v)) rest := by rw [hdm]
            _ = mergeObj (mergeObj (updateFirst t k (deepMerge old v)) rest) rest := by
                rw [updateFirst_eq_self hlookB]
            _ = mergeObj (updateFirst t k (deepMerge old v)) rest :=
                ih _ hIH' hndRest hwfv.2 hacc_nd hacc_wf
            _ = mergeObj t ((k, v) :: rest) := (mergeObj_cons_some v rest hl).symm
      | none =>
          have hnot : k ∉ keysOf t := lookupA_eq_none_iff.mp hl
          have hacc_nd : (keysOf (t ++ [(k, v)])).Nodup :=
            keysOf_append_single_nodup v hndT hnot
          have hacc_wf : wfO (t ++ [(k, v)]) = true := by
            rw [wfO_iff]
            intro q hq
            rcases List.mem_append.mp hq with h1 | h1
            · exact wfO_iff.mp hwfT _ h1
            · rcases List.mem_singleton.mp h1 with rfl
              exact hwfv.1
          have hlookB : lookupA (mergeObj (t ++ [(k, v)]) rest) k = some v := by
            rw [lookupA_mergeObj_not_mem hknotin, lookupA_append, hl]
            simp [lookupA]
          have hdm : deepMerge v v = v := dm_self v hwfv.1
          calc mergeObj (mergeObj t ((k, v) :: rest)) ((k, v) :: rest)
              = mergeObj (mergeObj (t ++ [(k, v)]) rest) ((k, v) :: rest) := by
                rw [mergeObj_cons_none v rest hl]
            _ = mergeObj
                  (updateFirst (mergeObj (t ++ [(k, v)]) rest) k (deepMerge v v))
                  rest := mergeObj_cons_some v rest hlookB
            _ = mergeObj (updateFirst (mergeObj (t ++ [(k, v)]) rest) k v) rest := by
                rw [hdm]
            _ = mergeObj (mergeObj (t ++ [(k, v)]) rest) rest := by
                rw [updateFirst_eq_self hlookB]
            _ = mergeObj (t ++ [(k, v)]) rest :=
                ih _ hIH' hndRest hwfv.2 hacc_nd hacc_wf
            _ = mergeObj t ((k, v) :: rest) := (mergeObj_cons_none v rest hl).symm

theorem dm_idem_rec :
    ∀ (n : Nat) (b a : Value), sizeOf b ≤ n → wfV a = true → wfV b = true →
      deepMerge (deepMerge a b) b = deepMerge a b := by
  intro n
  induction n with
  | zero =>
      intro b a hle _ _
      exact absurd hle (by have := sizeOf_value_pos b; omega)
  | succ n ih =>
      intro b a hle ha hb
      rcases deepMerge_shape a b with ⟨t, s, rfl, rfl, heq⟩ | ⟨t, s, rfl, rfl, heq⟩ | heq
      · rw [heq]
        have h2 : deepMerge (Value.obj (mergeObj t s)) (Value.obj s)
            = Value.obj (mergeObj (mergeObj t s) s) := by simp [deepMerge]
        rw [h2]
        rw [wfV_obj_iff] at ha hb
        congr 1
        refine mergeObj_idem_aux s t ?_ hb.1 hb.2 ha.1 ha.2
        intro k v hkv a' ha' hv'
        have hlt : sizeOf v < sizeOf (Value.obj s) := sizeOf_val_lt_obj hkv
        exact ih v a' (by omega) ha' hv'
      · rw [heq]
        have h2 : deepMerge (Value.arr (arrayUnion t s)) (Value.arr s)
            = Value.arr (arrayUnion (arrayUnion t s) s) := by simp [deepMerge]
        rw [h2]
        congr 1
        exact arrayUnion_idem t s
      · rw [heq]
        exact dm_self b hb

/-- Right idempotency of the settings merger: re-merging the same
well-formed source changes nothing. -/
theorem dm_idem (b a : Value) (ha : wfV a = true) (hb : wfV b = true) :
    deepMerge (deepMerge a b) b = deepMerge a b :=
  dm_idem_rec (sizeOf b) b a le_rfl ha hb

/-! ### Pointwise characterization of the settings-merger object case -/

theorem lookupA_mergeObj_of_both {s : List (String × Value)} :
    ∀ {t : List (String × Value)} {k : String} {a b : Value},
      (keysOf s).Nodup → lookupA t k = some a → lookupA s k = some b →
      lookupA (mergeObj t s) k = some (deepMerge a b) := by
  induction s with
  | nil =>
      intro t k a b _ _ hsb
      simp [lookupA] at hsb
  | cons p rest ih =>
      intro t k a b hnd hta hsb
      obtain ⟨k', v'⟩ := p
      have hndRest : (keysOf rest).Nodup := by
        simp only [keysOf, List.map_cons, List.nodup_cons] at hnd
        exact hnd.2
      by_cases hk : k' = k
      · subst hk
        have hb : v' = b := by simpa [lookupA] using hsb
        subst hb
        have hknotin : k' ∉ keysOf rest := by
          simp only [keysOf, List.map_cons, List.nodup_cons] at hnd
          exact hnd.1
        rw [mergeObj_cons_some v' rest hta, lookupA_mergeObj_not_mem hknotin,
          lookupA_updateFirst_self hta]
      · have hsb' : lookupA rest k = some b := by simpa [lookupA, hk] using hsb
        cases hl : lookupA t k' with
        | some old =>
            rw [mergeObj_cons_some v' rest hl]
            exact ih hndRest (by rwa [lookupA_updateFirst_ne (fun h => hk h.symm)]) hsb'
        | none =>
            rw [mergeObj_cons_none v' rest hl]
            refine ih hndRest ?_ hsb'
            rw [lookupA_append, hta]

theorem lookupA_mergeObj_source_only {s : List (String × Value)} :
    ∀ {t : List (String × Value)} {k : String} {b : Value},
      (keysOf s).Nodup → lookupA t k = none → lookupA s k = some b →
      lookupA (mergeObj t s) k = some b := by
  induction s with
  | nil =>
      intro t k b _ _ hsb
      simp [lookupA] at hsb
  | cons p rest ih =>
      intro t k b hnd ht hsb
      obtain ⟨k', v'⟩ := p
      have hndRest : (keysOf rest).Nodup := by
        simp only [keysOf, List.map_cons, List.nodup_cons] at hnd
        exact hnd.2
      by_cases hk : k' = k
      · subst hk
        have hb : v' = b := by simpa [lookupA] using hsb
        subst hb
        have hknotin : k' ∉ keysOf rest := by
          simp only [keysOf, List.map_cons, List.nodup_cons] at hnd
          exact hnd.1
        rw [mergeObj_cons_none v' rest ht, lookupA_mergeObj_not_mem hknotin,
          lookupA_append, ht]
        simp [lookupA]
      · have hsb' : lookupA rest k = some b := by simpa [lookupA, hk] using hsb
        cases hl : lookupA t k' with
        | some old =>
            rw [mergeObj_cons_some v' rest hl]
            exact ih hndRest (by rwa [lookupA_updateFirst_ne (fun h => hk h.symm)]) hsb'
        | none =>
            rw [mergeObj_cons_none v' rest hl]
            refine ih hndRest ?_ hsb'
            rw [lookupA_append, ht]
            simp [lookupA, hk]

/-! ### Permission-generator variant merge: stepping facts -/

theorem pgMergeObj_nil (t : List (String × Value)) : pgMergeObj t [] = t := by
  simp [pgMergeObj]

theorem pgMergeObj_cons_perm {t : List (String × Value)} {old : Value}
    (v : Value) (rest : List (String × Value))
    (h : lookupA t "permissions" = some old) :
    pgMergeObj t (("permissions", v) :: rest)
      = pgMergeObj (updateFirst t "permissions" (pgDeepMerge old v)) rest := by
  simp [pgMergeObj, h]

theorem pgMergeObj_cons_other {t : List (String × Value)} {k : String} {old : Value}
    (v : Value) (rest : List (String × Value))
    (hk : k ≠ "permissions") (h : lookupA t k = some old) :
    pgMergeObj t ((k, v) :: rest) = pgMergeObj (updateFirst t k v) rest := by
  simp [pgMergeObj, h, hk]

theorem pgMergeObj_cons_none {t : List (String × Value)} {k : String}
    (v : Value) (rest : List (String × Value)) (h : lookupA t k = none) :
    pgMergeObj t ((k, v) :: rest) = pgMergeObj (t ++ [(k, v)]) rest := by
  simp [pgMergeObj, h]

theorem lookupA_pgMergeObj_not_mem {s t : List (String × Value)} {k : String}
    (h : k ∉ keysOf s) : lookupA (pgMergeObj t s) k = lookupA t k := by
  induction s generalizing t with
  | nil => simp [pgMergeObj]
  | cons p rest ih =>
      obtain ⟨k', v'⟩ := p
      have hk : k' ≠ k := by
        intro he
        subst he
        simp [keysOf] at h
      have hrest : k ∉ keysOf rest := by
        simp only [keysOf, List.map_cons, List.mem_cons] at h
        tauto
      cases hl : lookupA t k' with
      | some old =>
          by_cases hperm : k' = "permissions"
          · subst hperm
            rw [pgMergeObj_cons_perm v' rest hl, ih hrest,
              lookupA_updateFirst_ne (Ne.symm hk)]
          · rw [pgMergeObj_cons_other v' rest hperm hl, ih hrest,
              lookupA_updateFirst_ne (Ne.symm hk)]
      | none =>
          rw [pgMergeObj_cons_none v' rest hl, ih hrest, lookupA_append]
          cases lookupA t k <;> simp [lookupA, hk]

theorem lookupA_pgMergeObj_other {s : List (String × Value)} :
    ∀ {t : List (String × Value)} {k : String} {a b : Value},
      (keysOf s).Nodup → k ≠ "permissions" → lookupA t k = some a →
      lookupA s k = some b → lookupA (pgMergeObj t s) k = some b := by
  induction s with
  | nil =>
      intro t k a b _ _ _ hsb
      simp [lookupA] at hsb
  | cons p rest ih =>
      intro t k a b hnd hkp hta hsb
      obtain ⟨k', v'⟩ := p
      have hndRest : (keysOf rest).Nodup := by
        simp only [keysOf, List.map_cons, List.nodup_cons] at hnd
        exact hnd.2
      by_cases hk : k' = k
      · subst hk
        have hb : v' = b := by simpa [lookupA] using hsb
        subst hb
        have hknotin : k' ∉ keysOf rest := by
          simp only [keysOf, List.map_cons, List.nodup_cons] at hnd
          exact hnd.1
        rw [pgMergeObj_cons_other v' rest hkp hta, lookupA_pgMergeObj_not_mem hknotin,
          lookupA_updateFirst_self hta]
      · have hsb' : lookupA rest k = some b := by simpa [lookupA, hk] using hsb
        cases hl : lookupA t k' with
        | some old =>
            by_cases hperm : k' = "permissions"
            · subst hperm
              rw [pgMergeObj_cons_perm v' rest hl]
              exact ih hndRest hkp
                (by rwa [lookupA_updateFirst_ne (fun h => hk h.symm)]) hsb'
            · rw [pgMergeObj_cons_other v' rest hperm hl]
              exact ih hndRest hkp
                (by rwa [lookupA_updateFirst_ne (fun h => hk h.symm)]) hsb'
        | none =>
            rw [pgMergeObj_cons_none v' rest hl]
            refine ih (a := a) hndRest hkp ?_ hsb'
            rw [lookupA_append, hta]

theorem lookupA_pgMergeObj_perm {s : List (String × Value)} :
    ∀ {t : List (String × Value)} {a b : Value},
      (keysOf s).Nodup → lookupA t "permissions" = some a →
      lookupA s "permissions" = some b →
      lookupA (pgMergeObj t s) "permissions" = some (pgDeepMerge a b) := by
  induction s with
  | nil =>
      intro t a b _ _ hsb
      simp [lookupA] at hsb
  | cons p rest ih =>
      intro t a b hnd hta hsb
      obtain ⟨k', v'⟩ := p
      have hndRest : (keysOf rest).Nodup := by
        simp only [keysOf, List.map_cons, List.nodup_cons] at hnd
        exact hnd.2
      by_cases hk : k' = "permissions"
      · subst hk
        have hb : v' = b := by simpa [lookupA] using hsb
        subst hb
        have hknotin : "permissions" ∉ keysOf rest := by
          simp only [keysOf, List.map_cons, List.nodup_cons] at hnd
          exact hnd.1
        rw [pgMergeObj_cons_perm v' rest hta, lookupA_pgMergeObj_not_mem hknotin,
          lookupA_updateFirst_self hta]
      · have hsb' : lookupA rest "permissions" = some b := by
          simpa [lookupA, hk] using hsb
        cases hl : lookupA t k' with
        | some old =>
            rw [pgMergeObj_cons_other v' rest hk hl]
            exact ih hndRest
              (by rwa [lookupA_updateFirst_ne (Ne.symm hk)]) hsb'
        | none =>
            rw [pgMergeObj_cons_none v' rest hl]
            refine ih hndRest ?_ hsb'
            rw [lookupA_append, hta]

theorem lookupA_pgMergeObj_source_only {s : List (String × Value)} :
    ∀ {t : List (String × Value)} {k : String} {b : Value},
      (keysOf s).Nodup → lookupA t k = none → lookupA s k = some b →
      lookupA (pgMergeObj t s) k = some b := by
  induction s with
  | nil =>
      intro t k b _ _ hsb
      simp [lookupA] at hsb
  | cons p rest ih =>
      intro t k b hnd ht hsb
      obtain ⟨k', v'⟩ := p
      have hndRest : (keysOf rest).Nodup := by
        simp only [keysOf, List.map_cons, List.nodup_cons] at hnd
        exact hnd.2
      by_cases hk : k' = k
      · subst hk
        have hb : v' = b := by simpa [lookupA] using hsb
        subst hb
        have hknotin : k' ∉ keysOf rest := by
          simp only [keysOf, List.map_cons, List.nodup_cons] at hnd
          exact hnd.1
        rw [pgMergeObj_cons_none v' rest ht, lookupA_pgMergeObj_not_mem hknotin,
          lookupA_append, ht]
        simp [lookupA]
      · have hsb' : lookupA rest k = some b := by simpa [lookupA, hk] using hsb
        cases hl : lookupA t k' with
        | some old =>
            by_cases hperm : k' = "permissions"
            · subst hperm
              rw [pgMergeObj_cons_perm v' rest hl]
              exact ih hndRest
                (by rwa [lookupA_updateFirst_ne (fun h => hk h.symm)]) hsb'
            · rw [pgMergeObj_cons_other v' rest hperm hl]
              exact ih hndRest
                (by rwa [lookupA_updateFirst_ne (fun h => hk h.symm)]) hsb'
        | none =>
            rw [pgMergeObj_cons_none v' rest hl]
            refine ih hndRest ?_ hsb'
            rw [lookupA_append, ht]
            simp [lookupA, hk]

theorem pgDeepMerge_arr (a b : List Value) :
    pgDeepMerge (Value.arr a) (Value.arr b) = Value.arr b := by
  simp [pgDeepMerge]

/-- `apply_to_local_settings` from `src/core/permission_generator.rs`
lines 68-98: read the existing settings (an absent file reads as the empty
object), merge the generated permission config in with the variant
`deep_merge`, and write the result back. -/
def applyToLocalSettings (existing : Option Value) (cfg : Value) : Value :=
  pgDeepMerge (existing.getD (Value.obj [])) cfg

/-! ## Filesystem model for the symlink overlay manager
(`src/core/symlink_manager.rs`)

A managed workspace subdirectory (`.claude/agents` or `.claude/commands`)
is an association list from file names to entries; path canonicalization
(`fs::canonicalize`) is an explicit partial function on paths, treated by
the code as an oracle.  `Path::exists` follows symlinks, so a symlink
entry "exists" exactly when its stored destination canonicalizes. -/

/-- A directory entry: a symlink storing its destination path, or a
regular file. -/
inductive Entry where
  | symlink (dest : String)
  | file
deriving DecidableEq

/-- Errors of `create_symlink_with_prefix`: the Conflict bail-out of line
101, a `fs::canonicalize` failure, and the `unix_fs::symlink` failure
(EEXIST) hit when a dangling link still occupies the target name. -/
inductive SymErr where
  | conflict (path : String)
  | canonFail
  | createFail
deriving DecidableEq

/-- Remove the entry stored under a name (`fs::remove_file` on the
target).  A real directory binds each name at most once, so removing every
binding of the name is the same as removing the single one. -/
def eraseKey {α : Type} (d : List (String × α)) (key : String) : List (String × α) :=
  d.filter fun p => p.1 ≠ key

/-- The collision-avoiding target name: `format!("{}_{}", stack_name, filename)`
of `symlink_manager.rs` line 81. -/
def prefixedName (stackName filename : String) : String :=
  stackName ++ "_" ++ filename

/-- `Path::exists` on an occupied name: regular files exist; a symlink
exists iff its destination resolves (`exists` follows links). -/
def entryResolves (canon : String → Option String) : Entry → Bool
  | Entry.file => true
  | Entry.symlink d => (canon d).isSome

/-- `create_symlink_with_prefix` from `src/core/symlink_manager.rs` lines
75-115, as a transformer of one managed directory.  The returned pair is
the optional error together with the directory state when the function
returns (the Rust function mutates the filesystem in place; every error
exit happens before any mutation, and the replace path removes and then
recreates the link). -/
def createSymlinkWithPrefix (canon : String → Option String) (dir : List (String × Entry))
    (stackName filename source : String) : Option SymErr × List (String × Entry) :=
  let nm := prefixedName stackName filename
  match lookupA dir nm with
  | some e =>
      if entryResolves canon e then
        match e with
        | Entry.symlink d =>
            match canon source with
            | none => (some SymErr.canonFail, dir)
            | some cs =>
                if (canon d).getD d = cs then (none, dir)
                else (none, eraseKey dir nm ++ [(nm, Entry.symlink cs)])
        | Entry.file => (some (SymErr.conflict nm), dir)
      else
        match canon source with
        | none => (some SymErr.canonFail, dir)
        | some _ => (some SymErr.createFail, dir)
  | none =>
      match canon source with
      | none => (some SymErr.canonFail, dir)
      | some cs => (none, dir ++ [(nm, Entry.symlink cs)])

/-- The per-stack loop of `create_symlinks_for_stack` /
`create_symlinks_for_subdir` (lines 21-72): process each discovered file
in order, failing fast on the first error (`?` propagation). -/
def applyStack (canon : String → Option String) (stackName : String) :
    List (String × String) → List (String × Entry) → Option SymErr × List (String × Entry)
  | [], d => (none, d)
  | (fn, src) :: rest, d =>
      match createSymlinkWithPrefix canon d stackName fn src with
      | (some e, d') => (some e, d')
      | (none, d') => applyStack canon stackName rest d'

/-- `walkdir::DirEntry::file_type().is_file()` with links not followed:
true only for regular files, false for symlinks. -/
def wdIsFile : Entry → Bool
  | Entry.file => true
  | Entry.symlink _ => false

/-- `Path::is_symlink()`. -/
def isSymlinkE : Entry → Bool
  | Entry.file => false
  | Entry.symlink _ => true

/-- `str::starts_with` on file names. -/
def strStartsWith (s pfx : String) : Bool := List.isPrefixOf pfx.data s.data

/-- `remove_stack_symlinks` from `src/core/symlink_manager.rs` lines
127-155 on one managed directory: walk the entries and delete those that
pass the filter `file_type().is_file() && path.is_symlink()` and whose
name starts with `stack_name ++ "_"`.  A `fs::remove_file` failure would
propagate through `?`; no failure is modelled because (as proved below)
the filter never accepts an entry, so the loop body never runs. -/
def removeStackSymlinks (dir : List (String × Entry)) (stackName : String) :
    List (String × Entry) :=
  dir.filter fun p =>
    !(wdIsFile p.2 && isSymlinkE p.2 && strStartsWith p.1 (stackName ++ "_"))

/-- Canonicalization is stable: re-canonicalizing a canonical path yields
the path itself, as `fs::canonicalize` does for an existing resolved path. -/
def canonIdem (canon : String → Option String) : Prop :=
  ∀ p q, canon p = some q → canon q = some q

/-! ### Symlink-manager lemmas -/

theorem lookupA_eraseKey_ne {α : Type} {d : List (String × α)} {k q : String}
    (h : q ≠ k) : lookupA (eraseKey d k) q = lookupA d q := by
  induction d with
  | nil => simp [eraseKey]
  | cons p rest ih =>
      obtain ⟨k', v'⟩ := p
      by_cases hk : k' = k
      · subst hk
        have hne : ¬ k' = q := fun hh => h hh.symm
        simp [eraseKey, lookupA, hne] at ih ⊢
        exact ih
      · by_cases hq : k' = q
        · subst hq
          simp [eraseKey, lookupA, hk]
        · simp [eraseKey, lookupA, hk, hq] at ih ⊢
          exact ih

theorem lookupA_eraseKey_self {α : Type} (d : List (String × α)) (k : String) :
    lookupA (eraseKey d k) k = none := by
  induction d with
  | nil => simp [eraseKey, lookupA]
  | cons p rest ih =>
      obtain ⟨k', v'⟩ := p
      by_cases hk : k' = k
      · subst hk
        simpa [eraseKey, lookupA] using ih
      · simpa [eraseKey, lookupA, hk] using ih

theorem wdIsFile_and_isSymlink (e : Entry) : (wdIsFile e && isSymlinkE e) = false := by
  cases e <;> simp [wdIsFile, isSymlinkE]

/-- The removal filter of `remove_stack_symlinks` is unsatisfiable, so the
function never deletes anything. -/
theorem removeStackSymlinks_eq_self (dir : List (String × Entry)) (sn : String) :
    removeStackSymlinks dir sn = dir := by
  unfold removeStackSymlinks
  apply List.filter_eq_self.mpr
  intro p _
  rw [wdIsFile_and_isSymlink p.2]
  simp

theorem prefixedName_inj {sn a b : String} (h : prefixedName sn a = prefixedName sn b) :
    a = b := by
  unfold prefixedName at h
  have hd : (sn ++ "_").data ++ a.data = (sn ++ "_").data ++ b.data := by
    have h1 := congrArg String.data h
    simpa [String.data_append, List.append_assoc] using h1
  have := List.append_cancel_left hd
  exact String.ext this

theorem createSymlink_conflict {canon : String → Option String}
    {d : List (String × Entry)} {sn fn : String} (src : String)
    (h : lookupA d (prefixedName sn fn) = some Entry.file) :
    createSymlinkWithPrefix canon d sn fn src
      = (some (SymErr.conflict (prefixedName sn fn)), d) := by
  simp [createSymlinkWithPrefix, h, entryResolves]

theorem createSymlink_noop {canon : String → Option String}
    {d : List (String × Entry)} {sn fn src L cs : String}
    (hlook : lookupA d (prefixedName sn fn) = some (Entry.symlink L))
    (hL : canon L = some cs) (hsrc : canon src = some cs) :
    createSymlinkWithPrefix canon d sn fn src = (none, d) := by
  simp [createSymlinkWithPrefix, hlook, entryResolves, hL, hsrc]

theorem createSymlink_replace {canon : String → Option String}
    {d : List (String × Entry)} {sn fn src L cs : String}
    (hlook : lookupA d (prefixedName sn fn) = some (Entry.symlink L))
    (hres : (canon L).isSome) (hsrc : canon src = some cs) :
    createSymlinkWithPrefix canon d sn fn src
      = if (canon L).getD L = cs then (none, d)
        else (none, eraseKey d (prefixedName sn fn)
          ++ [(prefixedName sn fn, Entry.symlink cs)]) := by
  simp [createSymlinkWithPrefix, hlook, entryResolves, hres, hsrc]

theorem createSymlink_other {canon : String → Option String}
    {d : List (String × Entry)} {sn fn src q : String}
    (hq : q ≠ prefixedName sn fn) :
    lookupA (createSymlinkWithPrefix canon d sn fn src).2 q = lookupA d q := by
  have hnq : ¬ prefixedName sn fn = q := fun h => hq h.symm
  cases hl : lookupA d (prefixedName sn fn) with
  | some e =>
      cases e with
      | symlink dd =>
          by_cases hres : (canon dd).isSome
          · cases hc : canon src with
            | none => simp [createSymlinkWithPrefix, hl, entryResolves, hres, hc]
            | some cs =>
                rw [createSymlink_replace hl hres hc]
                by_cases heq : (canon dd).getD dd = cs
                · rw [if_pos heq]
                · rw [if_neg heq]
                  show lookupA (eraseKey d (prefixedName sn fn)
                    ++ [(prefixedName sn fn, Entry.symlink cs)]) q = lookupA d q
                  rw [lookupA_append, lookupA_eraseKey_ne hq]
                  cases lookupA d q <;> simp [lookupA, hnq]
          · cases hc : canon src with
            | none => simp [createSymlinkWithPrefix, hl, entryResolves, hres, hc]
            | some cs => simp [createSymlinkWithPrefix, hl, entryResolves, hres, hc]
      | file =>
          rw [createSymlink_conflict src hl]
  | none =>
      cases hc : canon src with
      | none => simp [createSymlinkWithPrefix, hl, hc]
      | some cs =>
          have hstep : createSymlinkWithPrefix canon d sn fn src
              = (none, d ++ [(prefixedName sn fn, Entry.symlink cs)]) := by
            simp [createSymlinkWithPrefix, hl, hc]
          rw [hstep]
          show lookupA (d ++ [(prefixedName sn fn, Entry.symlink cs)]) q = lookupA d q
          rw [lookupA_append]
          cases lookupA d q <;> simp [lookupA, hnq]

theorem createSymlink_file_preserved {canon : String → Option String}
    {d : List (String × Entry)} {sn fn src q : String}
    (h : lookupA d q = some Entry.file) :
    lookupA (createSymlinkWithPrefix canon d sn fn src).2 q = some Entry.file := by
  by_cases hq : q = prefixedName sn fn
  · subst hq
    rw [createSymlink_conflict src h]
    exact h
  · rw [createSymlink_other hq]
    exact h

theorem createSymlink_ok_lookup {canon : String → Option String}
    {d d1 : List (String × Entry)} {sn fn src : String}
    (hci : canonIdem canon)
    (h : createSymlinkWithPrefix canon d sn fn src = (none, d1)) :
    ∃ L cs, canon src = some cs ∧ canon L = some cs ∧
      lookupA d1 (prefixedName sn fn) = some (Entry.symlink L) := by
  cases hl : lookupA d (prefixedName sn fn) with
  | some e =>
      cases e with
      | symlink dd =>
          by_cases hres : (canon dd).isSome
          · cases hc : canon src with
            | none => simp [createSymlinkWithPrefix, hl, entryResolves, hres, hc] at h
            | some cs =>
                rw [createSymlink_replace hl hres hc] at h
                by_cases heq : (canon dd).getD dd = cs
                · rw [if_pos heq] at h
                  have hd1 : d = d1 := congrArg Prod.snd h
                  subst hd1
                  refine ⟨dd, cs, rfl, ?_, hl⟩
                  obtain ⟨x, hx⟩ := Option.isSome_iff_exists.mp hres
                  rw [hx] at heq
                  simp at heq
                  rw [hx, heq]
                · rw [if_neg heq] at h
                  have hd1 : eraseKey d (prefixedName sn fn)
                      ++ [(prefixedName sn fn, Entry.symlink cs)] = d1 :=
                    congrArg Prod.snd h
                  refine ⟨cs, cs, rfl, hci src cs hc, ?_⟩
                  rw [← hd1, lookupA_append, lookupA_eraseKey_self]
                  simp [lookupA]
          · cases hc : canon src with
            | none => simp [createSymlinkWithPrefix, hl, entryResolves, hres, hc] at h
            | some cs => simp [createSymlinkWithPrefix, hl, entryResolves, hres, hc] at h
      | file =>
          rw [createSymlink_conflict src hl] at h
          exact absurd (congrArg Prod.fst h) (by simp)
  | none =>
      cases hc : canon src with
      | none => simp [createSymlinkWithPrefix, hl, hc] at h
      | some cs =>
          have hstep : createSymlinkWithPrefix canon d sn fn src
              = (none, d ++ [(prefixedName sn fn, Entry.symlink cs)]) := by
            simp [createSymlinkWithPrefix, hl, hc]
          rw [hstep] at h
          have hd1 : d ++ [(prefixedName sn fn, Entry.symlink cs)] = d1 :=
            congrArg Prod.snd h
          refine ⟨cs, cs, rfl, hci src cs hc, ?_⟩
          rw [← hd1, lookupA_append, hl]
          simp [lookupA]

theorem applyStack_file_preserved {canon : String → Option String} {sn : String} :
    ∀ (files : List (String × String)) (d : List (String × Entry)) (q : String),
      lookupA d q = some Entry.file →
      lookupA (applyStack canon sn files d).2 q = some Entry.file := by
  intro files
  induction files with
  | nil =>
      intro d q h
      simpa [applyStack] using h
  | cons p rest ih =>
      intro d q h
      obtain ⟨fn, src⟩ := p
      have h2 := @createSymlink_file_preserved canon d sn fn src q h
      cases hc : createSymlinkWithPrefix canon d sn fn src with
      | mk e d' =>
          rw [hc] at h2
          cases e with
          | some err => simpa [applyStack, hc] using h2
          | none =>
              have happ : applyStack canon sn ((fn, src) :: rest) d
                  = applyStack canon sn rest d' := by simp [applyStack, hc]
              rw [happ]
              exact ih d' q h2

theorem applyStack_fails {canon : String → Option String} {sn : String} :
    ∀ (files : List (String × String)) (d : List (String × Entry)) (fn src : String),
      (fn, src) ∈ files → lookupA d (prefixedName sn fn) = some Entry.file →
      (applyStack canon sn files d).1 ≠ none := by
  intro files
  induction files with
  | nil =>
      intro d fn src hmem _
      simp at hmem
  | cons p rest ih =>
      intro d fn src hmem hfile
      obtain ⟨fn', src'⟩ := p
      rcases List.mem_cons.mp hmem with heq | htail
      · obtain ⟨h1, h2⟩ := Prod.mk.injEq .. ▸ heq
        subst h1
        subst h2
        have hc := @createSymlink_conflict canon d sn fn src hfile
        simp [applyStack, hc]
      · cases hc : createSymlinkWithPrefix canon d sn fn' src' with
        | mk e d' =>
            cases e with
            | some err => simp [applyStack, hc]
            | none =>
                have h2 := @createSymlink_file_preserved canon d sn fn' src'
                  (prefixedName sn fn) hfile
                rw [hc] at h2
                have happ : applyStack canon sn ((fn', src') :: rest) d
                    = applyStack canon sn rest d' := by simp [applyStack, hc]
                rw [happ]
                exact ih d' fn src htail h2

theorem applyStack_other {canon : String → Option String} {sn : String} :
    ∀ (files : List (String × String)) (d : List (String × Entry)) (q : String),
      (∀ fn ∈ files.map Prod.fst, prefixedName sn fn ≠ q) →
      lookupA (applyStack canon sn files d).2 q = lookupA d q := by
  intro files
  induction files with
  | nil =>
      intro d q _
      simp [applyStack]
  | cons p rest ih =>
      intro d q hq
      obtain ⟨fn, src⟩ := p
      have hqfn : q ≠ prefixedName sn fn := by
        intro h
        exact hq fn (by simp) h.symm
      have h2 := @createSymlink_other canon d sn fn src q hqfn
      cases hc : createSymlinkWithPrefix canon d sn fn src with
      | mk e d' =>
          rw [hc] at h2
          cases e with
          | some err => simpa [applyStack, hc] using h2
          | none =>
              have happ : applyStack canon sn ((fn, src) :: rest) d
                  = applyStack canon sn rest d' := by simp [applyStack, hc]
              rw [happ, ih d' q (fun fn' hm => hq fn' (by simp [hm]))]
              exact h2

theorem applyStack_reapply {canon : String → Option String} {sn : String}
    (hci : canonIdem canon) :
    ∀ (files : List (String × String)) (d d1 : List (String × Entry)),
      (files.map Prod.fst).Nodup →
      applyStack canon sn files d = (none, d1) →
      applyStack canon sn files d1 = (none, d1) := by
  intro files
  induction files with
  | nil =>
      intro d d1 _ h
      simp [applyStack]
  | cons p rest ih =>
      intro d d1 hnd h
      obtain ⟨fn, src⟩ := p
      cases hc : createSymlinkWithPrefix canon d sn fn src with
      | mk e d' =>
          cases e with
          | some err => simp [applyStack, hc] at h
          | none =>
              have h' : applyStack canon sn rest d' = (none, d1) := by
                simpa [applyStack, hc] using h
              obtain ⟨L, cs, hsrc, hL, hlook⟩ := createSymlink_ok_lookup hci hc
              have hndc : fn ∉ rest.map Prod.fst ∧ (rest.map Prod.fst).Nodup := by
                simpa [List.nodup_cons] using hnd
              have hnotin : ∀ fn' ∈ rest.map Prod.fst,
                  prefixedName sn fn' ≠ prefixedName sn fn := by
                intro fn' hmem heq
                have hff : fn' = fn := prefixedName_inj heq
                subst hff
                exact hndc.1 hmem
              have htrans := @applyStack_other canon sn rest d' (prefixedName sn fn) hnotin
              rw [h'] at htrans
              have hlook1 : lookupA d1 (prefixedName sn fn)
                  = some (Entry.symlink L) := by rw [htrans]; exact hlook
              have hstep : createSymlinkWithPrefix canon d1 sn fn src = (none, d1) :=
                createSymlink_noop hlook1 hL hsrc
              have happ : applyStack canon sn ((fn, src) :: rest) d1
                  = applyStack canon sn rest d1 := by simp [applyStack, hstep]
              rw [happ]
              exact ih d' d1 hndc.2 h'

/-! ## Markdown import manager model (`src/utils/claude_md_updater.rs`)

File contents are Lean strings; `str::lines`, `str::trim`, `str::contains`
and `join("\n")` are modelled character-exactly (ASCII whitespace; the
managed content never holds `\r\n` or non-ASCII whitespace). -/

/-- `isPrefixOfB n h`: does `n` occur at the start of `h`? -/
def isPrefixOfB : List Char → List Char → Bool
  | [], _ => true
  | _ :: _, [] => false
  | a :: as, b :: bs => a == b && isPrefixOfB as bs

/-- `isInfixOfB n h`: does `n` occur contiguously anywhere in `h`?
(Rust `str::contains` with a string pattern.) -/
def isInfixOfB (n : List Char) : List Char → Bool
  | [] => n.isEmpty
  | c :: t => isPrefixOfB n (c :: t) || isInfixOfB n t

/-- `str::contains` on strings. -/
def strContainsB (hay needle : String) : Bool := isInfixOfB needle.data hay.data

/-- The import reference for a stack:
`format!("@stacks/{}/CLAUDE.md", stack_name)`. -/
def importLine (stackName : String) : String :=
  "@stacks/" ++ stackName ++ "/CLAUDE.md"

/-- Split a character list at newlines, accumulating the current line in
reverse (the workhorse behind `str::lines`). -/
def splitLinesAux : List Char → List Char → List (List Char)
  | [], acc => [acc.reverse]
  | c :: rest, acc =>
      if c = '\n' then acc.reverse :: splitLinesAux rest []
      else splitLinesAux rest (c :: acc)

/-- All newline-separated chunks of a string, including a final empty
chunk when the string ends in a newline. -/
def rawLines (s : String) : List String := (splitLinesAux s.data []).map String.mk

/-- Rust `str::lines`: like `rawLines`, except that a trailing newline
produces no final empty line. -/
def rustLines (s : String) : List String :=
  if (rawLines s).getLast? = some "" then (rawLines s).dropLast else rawLines s

/-- `str::trim` on the character level: drop leading and trailing
whitespace. -/
def trimChars (l : List Char) : List Char :=
  ((l.dropWhile Char.isWhitespace).reverse.dropWhile Char.isWhitespace).reverse

/-- `str::trim`. -/
def strTrim (s : String) : String := String.mk (trimChars s.data)

/-- `Vec::join("\n")`. -/
def joinNL : List String → String
  | [] => ""
  | [l] => l
  | l :: l2 :: rest => l ++ "\n" ++ joinNL (l2 :: rest)

/-- The reference line inserted below the sentinel:
`format!("See {}.", import_line)`. -/
def seeLine (imp : String) : String := "See " ++ imp ++ "."

/-- `insert_stack_import_with_demarcation` from
`src/utils/claude_md_updater.rs` lines 165-189: if `----` occurs in the
content, walk the lines and push a blank line plus the reference line
after every line that trims to `----`; otherwise append
`content.trim() ++ "\n\n----\n\nSee <imp>.\n"`. -/
def insertWithDemarcation (content imp : String) : String :=
  if strContainsB content "----" then
    joinNL ((rustLines content).flatMap fun l =>
      if strTrim l = "----" then [l, "", seeLine imp] else [l])
  else
    strTrim content ++ "\n\n----\n\nSee " ++ imp ++ ".\n"

/-- `add_stack_import_with_demarcation` (lines 16-43): no file creates the
header plus sentinel plus reference; an existing file is returned verbatim
when the reference already occurs, and otherwise passed through
`insertWithDemarcation`. -/
def addStackImportWithDemarcation (c : Option String) (stackName : String) : String :=
  match c with
  | some content =>
      if strContainsB content (importLine stackName) then content
      else insertWithDemarcation content (importLine stackName)
  | none =>
      "# Project Instructions\n\n----\n\nSee " ++ importLine stackName ++ ".\n"

/-- A sequence of demarcated applies, starting from an optional file. -/
def applySeq (c : Option String) : List String → Option String
  | [] => c
  | n :: rest => applySeq (some (addStackImportWithDemarcation c n)) rest

/-- The truncation loop of `cleanup_demarcated_imports` (lines 203-214):
keep lines up to and including the first line trimming to `----`. -/
def cleanupTake : List String → List String
  | [] => []
  | l :: rest => if strTrim l = "----" then [l] else l :: cleanupTake rest

/-- `cleanup_demarcated_imports` (lines 192-224): when `----` occurs in
the content, rewrite the file as the joined truncated lines; otherwise
leave the file untouched. -/
def cleanupDemarcatedImports (c : String) : String :=
  if strContainsB c "----" then joinNL (cleanupTake (rustLines c)) else c

/-- Number of sentinel lines (lines trimming to `----`) of a content. -/
def sentinelCount (c : String) : Nat :=
  (rustLines c).countP fun l => strTrim l == "----"

/-! ### Line-splitting facts -/

theorem splitLinesAux_ne_nil (xs : List Char) : ∀ acc, splitLinesAux xs acc ≠ [] := by
  induction xs with
  | nil => intro acc; simp [splitLinesAux]
  | cons c rest ih =>
      intro acc
      by_cases h : c = '\n' <;> simp [splitLinesAux, h, ih]

theorem splitLinesAux_append_nl (xs : List Char) :
    ∀ (acc ys : List Char),
      splitLinesAux (xs ++ '\n' :: ys) acc
        = splitLinesAux xs acc ++ splitLinesAux ys [] := by
  induction xs with
  | nil => intro acc ys; simp [splitLinesAux]
  | cons c rest ih =>
      intro acc ys
      by_cases h : c = '\n' <;> simp [splitLinesAux, h, ih]

theorem splitLinesAux_noNL {xs : List Char} (h : ∀ c ∈ xs, c ≠ '\n') :
    ∀ acc, splitLinesAux xs acc = [acc.reverse ++ xs] := by
  induction xs with
  | nil => intro acc; simp [splitLinesAux]
  | cons c rest ih =>
      intro acc
      have hc : c ≠ '\n' := h c (List.mem_cons_self _ _)
      rw [splitLinesAux, if_neg hc, ih (fun c' hc' => h c' (List.mem_cons_of_mem _ hc'))]
      simp

theorem mem_splitLinesAux_occurs :
    ∀ (xs acc l : List Char), l ∈ splitLinesAux xs acc → l <:+: (acc.reverse ++ xs) := by
  intro xs
  induction xs with
  | nil =>
      intro acc l hl
      simp [splitLinesAux] at hl
      subst hl
      simp
  | cons c rest ih =>
      intro acc l hl
      by_cases h : c = '\n'
      · subst h
        rw [splitLinesAux, if_pos rfl] at hl
        rcases List.mem_cons.mp hl with rfl | hl
        · exact (List.prefix_append _ _).isInfix
        · have h1 := ih [] l hl
          simp at h1
          exact h1.trans ⟨acc.reverse ++ ['\n'], [], by simp⟩
      · rw [splitLinesAux, if_neg h] at hl
        have h1 := ih (c :: acc) l hl
        simpa using h1

theorem mem_splitLinesAux_noNL :
    ∀ (xs acc l : List Char), (∀ c ∈ acc, c ≠ '\n') → l ∈ splitLinesAux xs acc →
      ∀ c ∈ l, c ≠ '\n' := by
  intro xs
  induction xs with
  | nil =>
      intro acc l hacc hl
      simp [splitLinesAux] at hl
      subst hl
      intro c hc
      exact hacc c (by simpa using hc)
  | cons c0 rest ih =>
      intro acc l hacc hl
      by_cases h : c0 = '\n'
      · subst h
        rw [splitLinesAux, if_pos rfl] at hl
        rcases List.mem_cons.mp hl with rfl | hl
        · intro c hc
          exact hacc c (by simpa using hc)
        · exact ih [] l (by simp) hl
      · rw [splitLinesAux, if_neg h] at hl
        refine ih (c0 :: acc) l ?_ hl
        intro c hc
        rcases List.mem_cons.mp hc with rfl | hc
        · exact h
        · exact hacc c hc

theorem splitLinesAux_single_empty :
    ∀ (xs acc : List Char), splitLinesAux xs acc = [[]] → acc = [] ∧ xs = [] := by
  intro xs
  induction xs with
  | nil =>
      intro acc h
      simp [splitLinesAux] at h
      simp [h]
  | cons c rest ih =>
      intro acc h
      by_cases hc : c = '\n'
      · subst hc
        rw [splitLinesAux, if_pos rfl] at h
        exact absurd (congrArg List.tail h).symm
          (by simpa using splitLinesAux_ne_nil rest [])
      · rw [splitLinesAux, if_neg hc] at h
        have := (ih (c :: acc) h).1
        simp at this

/-! ### Joining, and the round trip with splitting -/

theorem data_joinNL_cons (l l2 : String) (rest : List String) :
    (joinNL (l :: l2 :: rest)).data = l.data ++ '\n' :: (joinNL (l2 :: rest)).data := by
  show (l ++ "\n" ++ joinNL (l2 :: rest)).data = _
  simp [String.data_append]

theorem splitLinesAux_joinNL :
    ∀ (L : List String), L ≠ [] → (∀ l ∈ L, ∀ c ∈ l.data, c ≠ '\n') →
      splitLinesAux (joinNL L).data [] = L.map String.data := by
  intro L
  induction L with
  | nil => intro h; exact absurd rfl h
  | cons l tail ih =>
      intro _ hnl
      cases tail with
      | nil =>
          show splitLinesAux l.data [] = [l.data]
          exact splitLinesAux_noNL (hnl l (by simp)) []
      | cons l2 rest =>
          rw [data_joinNL_cons, splitLinesAux_append_nl,
            splitLinesAux_noNL (hnl l (by simp)) [],
            ih (by simp) (fun x hx => hnl x (List.mem_cons_of_mem _ hx))]
          simp

theorem mk_data (s : String) : String.mk s.data = s := rfl

theorem rustLines_joinNL (L : List String) (hL : L ≠ [])
    (hnl : ∀ l ∈ L, ∀ c ∈ l.data, c ≠ '\n') :
    rustLines (joinNL L) = if L.getLast? = some "" then L.dropLast else L := by
  have hmap : rawLines (joinNL L) = L := by
    unfold rawLines
    rw [splitLinesAux_joinNL L hL hnl, List.map_map]
    have hid : String.mk ∘ String.data = id := funext fun s => rfl
    rw [hid, List.map_id]
  unfold rustLines
  rw [hmap]

theorem mem_rawLines_of_mem_rustLines {s l : String} (hl : l ∈ rustLines s) :
    l ∈ rawLines s := by
  unfold rustLines at hl
  by_cases h : (rawLines s).getLast? = some ""
  · rw [if_pos h] at hl
    exact (List.dropLast_sublist _).subset hl
  · rw [if_neg h] at hl
    exact hl

theorem rustLines_noNL (s : String) : ∀ l ∈ rustLines s, ∀ c ∈ l.data, c ≠ '\n' := by
  intro l hl
  obtain ⟨raw, hraw2, rfl⟩ := List.mem_map.mp (mem_rawLines_of_mem_rustLines hl)
  exact mem_splitLinesAux_noNL s.data [] raw (by simp) hraw2

theorem mem_rustLines_occurs {s : String} {l : String} (hl : l ∈ rustLines s) :
    l.data <:+: s.data := by
  obtain ⟨raw, hraw2, rfl⟩ := List.mem_map.mp (mem_rawLines_of_mem_rustLines hl)
  simpa using mem_splitLinesAux_occurs s.data [] raw hraw2

theorem rustLines_ne_nil {s : String} (h : s ≠ "") : rustLines s ≠ [] := by
  intro hd
  unfold rustLines at hd
  by_cases hlast : (rawLines s).getLast? = some ""
  · rw [if_pos hlast] at hd
    rcases hr : rawLines s with _ | ⟨x, tail⟩
    · have hsp : splitLinesAux s.data [] = [] := by
        have := congrArg List.length hr
        unfold rawLines at this
        simpa using List.length_eq_zero.mp (by simpa using this)
      exact splitLinesAux_ne_nil s.data [] hsp
    · rw [hr] at hd hlast
      cases tail with
      | cons y ys => simp at hd
      | nil =>
          simp at hlast
          subst hlast
          unfold rawLines at hr
          rcases hsp : splitLinesAux s.data [] with _ | ⟨raw, rtail⟩
          · exact splitLinesAux_ne_nil s.data [] hsp
          · rw [hsp] at hr
            simp at hr
            have hraw : raw = [] := by
              have := congrArg String.data hr.1
              simpa using this
            have hsingle : splitLinesAux s.data [] = [[]] := by
              rw [hsp, hraw, hr.2]
            have hdata := (splitLinesAux_single_empty s.data [] hsingle).2
            exact h (String.ext (by simpa using hdata))
  · rw [if_neg hlast] at hd
    have hsp : splitLinesAux s.data [] = [] := by
      have := congrArg List.length hd
      unfold rawLines at this
      simpa using List.length_eq_zero.mp (by simpa using this)
    exact splitLinesAux_ne_nil s.data [] hsp

/-! ### Substring and trimming facts -/

theorem isPrefixOfB_iff : ∀ (n h : List Char), isPrefixOfB n h = true ↔ n <+: h := by
  intro n
  induction n with
  | nil => intro h; simp [isPrefixOfB]
  | cons a as ih =>
      intro h
      cases h with
      | nil => simp [isPrefixOfB]
      | cons b bs =>
          simp only [isPrefixOfB, Bool.and_eq_true, beq_iff_eq, ih bs,
            List.cons_prefix_cons]

theorem isInfixOfB_iff : ∀ (h n : List Char), isInfixOfB n h = true ↔ n <:+: h := by
  intro h
  induction h with
  | nil =>
      intro n
      simp [isInfixOfB, List.isEmpty_iff]
  | cons c t ih =>
      intro n
      rw [isInfixOfB]
      simp only [Bool.or_eq_true, isPrefixOfB_iff, ih, List.infix_cons_iff]

theorem strContainsB_iff {hay needle : String} :
    strContainsB hay needle = true ↔ needle.data <:+: hay.data :=
  isInfixOfB_iff hay.data needle.data

theorem trimChars_occurs (l : List Char) : trimChars l <:+: l := by
  unfold trimChars
  have h1 : l.dropWhile Char.isWhitespace <:+ l := List.dropWhile_suffix _
  have h2 : (l.dropWhile Char.isWhitespace).reverse.dropWhile Char.isWhitespace
      <:+ (l.dropWhile Char.isWhitespace).reverse := List.dropWhile_suffix _
  have h3 := h2.reverse
  simp only [List.reverse_reverse] at h3
  exact h3.isInfix.trans h1.isInfix

theorem strTrim_sentinel_occurs {l : String} (h : strTrim l = "----") :
    ['-', '-', '-', '-'] <:+: l.data := by
  have hd : trimChars l.data = ['-', '-', '-', '-'] := congrArg String.data h
  rw [← hd]
  exact trimChars_occurs l.data

theorem trimChars_head {a : Char} (ha : ¬ a.isWhitespace) (l : List Char) :
    ∃ t, trimChars (a :: l) = a :: t := by
  unfold trimChars
  rw [List.dropWhile_cons, if_neg (by simpa using ha)]
  have hr : (a :: l).reverse = l.reverse ++ [a] := by simp
  rw [hr]
  have hsuf : (l.reverse ++ [a]).dropWhile Char.isWhitespace <:+ l.reverse ++ [a] :=
    List.dropWhile_suffix _
  have hne : (l.reverse ++ [a]).dropWhile Char.isWhitespace ≠ [] := by
    intro hnil
    have hall := List.dropWhile_eq_nil_iff.mp hnil
    exact ha (by simpa using hall a (by simp))
  obtain ⟨pre, hpre⟩ := hsuf
  have hlast : ((l.reverse ++ [a]).dropWhile Char.isWhitespace).getLast? = some a := by
    have h1 : (pre ++ (l.reverse ++ [a]).dropWhile Char.isWhitespace).getLast?
        = ((l.reverse ++ [a]).dropWhile Char.isWhitespace).getLast? :=
      List.getLast?_append_of_ne_nil _ hne
    rw [hpre] at h1
    rw [← h1, List.getLast?_concat]
  have hhead : ((l.reverse ++ [a]).dropWhile Char.isWhitespace).reverse.head? = some a := by
    rw [List.head?_reverse]
    exact hlast
  rcases hrev : ((l.reverse ++ [a]).dropWhile Char.isWhitespace).reverse with _ | ⟨x, t⟩
  · rw [hrev] at hhead
    simp at hhead
  · rw [hrev] at hhead
    simp at hhead
    subst hhead
    exact ⟨t, rfl⟩

theorem strTrim_head_ne_sentinel {a : Char} (ha : ¬ a.isWhitespace) (hne : a ≠ '-')
    (l : List Char) : strTrim (String.mk (a :: l)) ≠ "----" := by
  intro h
  obtain ⟨t, ht⟩ := trimChars_head ha l
  have hd : trimChars (a :: l) = ['-', '-', '-', '-'] := congrArg String.data h
  rw [ht] at hd
  exact hne (by simpa using congrArg List.head? hd)

theorem seeLine_data (imp : String) :
    (seeLine imp).data = 'S' :: 'e' :: 'e' :: ' ' :: (imp.data ++ ['.']) := by
  show ("See " ++ imp ++ ".").data = _
  simp [String.data_append]

theorem seeLine_not_sentinel (imp : String) : strTrim (seeLine imp) ≠ "----" := by
  have h1 : seeLine imp = String.mk ('S' :: 'e' :: 'e' :: ' ' :: (imp.data ++ ['.'])) := by
    have := seeLine_data imp
    exact String.ext this
  rw [h1]
  exact strTrim_head_ne_sentinel (by decide) (by decide) _

theorem empty_not_sentinel : strTrim "" ≠ "----" := by decide

theorem sentinel_trim : strTrim "----" = "----" := by decide

theorem seeLine_ne_empty (imp : String) : seeLine imp ≠ "" := by
  intro h
  have := congrArg String.data h
  rw [seeLine_data] at this
  simp at this

theorem seeLine_noNL {imp : String} (h : ∀ c ∈ imp.data, c ≠ '\n') :
    ∀ c ∈ (seeLine imp).data, c ≠ '\n' := by
  intro c hc heq
  subst heq
  rw [seeLine_data] at hc
  rcases List.mem_cons.mp hc with h1 | hc
  · exact absurd h1 (by decide)
  rcases List.mem_cons.mp hc with h1 | hc
  · exact absurd h1 (by decide)
  rcases List.mem_cons.mp hc with h1 | hc
  · exact absurd h1 (by decide)
  rcases List.mem_cons.mp hc with h1 | hc
  · exact absurd h1 (by decide)
  rcases List.mem_append.mp hc with h1 | h1
  · exact h _ h1 rfl
  · exact absurd (List.mem_singleton.mp h1) (by decide)

theorem importLine_noNL {n : String} (h : ∀ c ∈ n.data, c ≠ '\n') :
    ∀ c ∈ (importLine n).data, c ≠ '\n' := by
  intro c hc heq
  subst heq
  unfold importLine at hc
  simp only [String.data_append, List.append_assoc] at hc
  rcases List.mem_append.mp hc with hc | hc
  · exact absurd hc (by decide)
  · rcases List.mem_append.mp hc with hc | hc
    · exact h _ hc rfl
    · exact absurd hc (by decide)

/-! ### Sentinel counting -/

theorem countP_flatMap_insert (imp : String) (L : List String) :
    (L.flatMap fun l => if strTrim l = "----" then [l, "", seeLine imp] else [l]).countP
        (fun l => strTrim l == "----")
      = L.countP (fun l => strTrim l == "----") := by
  induction L with
  | nil => simp
  | cons l tail ih =>
      rw [List.flatMap_cons, List.countP_append, ih]
      by_cases h : strTrim l = "----"
      · rw [if_pos h]
        have h1 : List.countP (fun l => strTrim l == "----") [l, "", seeLine imp] = 1 := by
          simp [List.countP_cons, List.countP_nil, h, empty_not_sentinel,
            seeLine_not_sentinel imp]
        rw [h1]
        simp [List.countP_cons, h]
        omega
      · rw [if_neg h]
        have h1 : List.countP (fun l => strTrim l == "----") [l] = 0 := by
          simp [List.countP_cons, List.countP_nil, h]
        rw [h1]
        simp [List.countP_cons, h]

theorem splitLinesAux_nl_cons (ys : List Char) :
    splitLinesAux ('\n' :: ys) [] = [] :: splitLinesAux ys [] := by
  simp [splitLinesAux]

theorem splitLines_tail_block {imp : String} (hImp : ∀ c ∈ imp.data, c ≠ '\n') :
    splitLinesAux
        ('\n' :: ('-' :: '-' :: '-' :: '-' :: '\n' :: '\n'
          :: ('S' :: 'e' :: 'e' :: ' ' :: (imp.data ++ ['.', '\n'])))) []
      = [[], ['-', '-', '-', '-'], [],
          'S' :: 'e' :: 'e' :: ' ' :: (imp.data ++ ['.']), []] := by
  have hbody : ∀ c ∈ 'S' :: 'e' :: 'e' :: ' ' :: (imp.data ++ ['.']), c ≠ '\n' := by
    have h1 := seeLine_noNL hImp
    rwa [seeLine_data] at h1
  rw [splitLinesAux_nl_cons]
  rw [show ('-' :: '-' :: '-' :: '-' :: '\n' :: '\n'
      :: ('S' :: 'e' :: 'e' :: ' ' :: (imp.data ++ ['.', '\n'])))
    = ['-', '-', '-', '-'] ++ '\n'
      :: ('\n' :: ('S' :: 'e' :: 'e' :: ' ' :: (imp.data ++ ['.', '\n']))) from rfl]
  rw [splitLinesAux_append_nl, splitLinesAux_noNL (by decide) []]
  rw [splitLinesAux_nl_cons]
  rw [show ('S' :: 'e' :: 'e' :: ' ' :: (imp.data ++ ['.', '\n']))
    = ('S' :: 'e' :: 'e' :: ' ' :: (imp.data ++ ['.'])) ++ '\n' :: [] from by simp]
  rw [splitLinesAux_append_nl, splitLinesAux_noNL hbody []]
  simp [splitLinesAux]

theorem rustLines_block (T : String) {imp : String}
    (hImp : ∀ c ∈ imp.data, c ≠ '\n') :
    rustLines (T ++ "\n\n----\n\nSee " ++ imp ++ ".\n")
      = (splitLinesAux T.data []).map String.mk ++ ["", "----", "", seeLine imp] := by
  have hdata : (T ++ "\n\n----\n\nSee " ++ imp ++ ".\n").data
      = T.data ++ '\n' :: ('\n' :: ('-' :: '-' :: '-' :: '-' :: '\n' :: '\n'
          :: ('S' :: 'e' :: 'e' :: ' ' :: (imp.data ++ ['.', '\n'])))) := by
    simp [String.data_append]
  unfold rustLines rawLines
  rw [hdata, splitLinesAux_append_nl, splitLines_tail_block hImp, List.map_append]
  have hsee : String.mk ('S' :: 'e' :: 'e' :: ' ' :: (imp.data ++ ['.'])) = seeLine imp :=
    String.ext (by rw [seeLine_data])
  have hmapt : List.map String.mk
      [[], ['-', '-', '-', '-'], [], 'S' :: 'e' :: 'e' :: ' ' :: (imp.data ++ ['.']), []]
      = ["", "----", "", seeLine imp, ""] := by
    simp [hsee]
  rw [hmapt]
  have hlast : (List.map String.mk (splitLinesAux T.data [])
      ++ ["", "----", "", seeLine imp, ""]).getLast? = some "" := by
    rw [List.getLast?_append_of_ne_nil _ (by simp)]
    simp
  rw [if_pos hlast]
  rw [show (List.map String.mk (splitLinesAux T.data [])
      ++ ["", "----", "", seeLine imp, ""])
    = (List.map String.mk (splitLinesAux T.data [])
      ++ ["", "----", "", seeLine imp]) ++ [""] from by simp]
  rw [List.dropLast_concat]

/-- Sentinel count of an optional file (an absent file has none). -/
def sentinelCountO : Option String → Nat
  | none => 0
  | some s => sentinelCount s

theorem flatMap_insert_ne_nil (imp : String) (L : List String) (hL : L ≠ []) :
    (L.flatMap fun l => if strTrim l = "----" then [l, "", seeLine imp] else [l]) ≠ [] := by
  cases L with
  | nil => exact absurd rfl hL
  | cons x tail =>
      rw [List.flatMap_cons]
      by_cases h : strTrim x = "----" <;> simp [h]

theorem mem_flatMap_insert {imp : String} {L : List String} {l : String}
    (h : l ∈ L.flatMap fun l => if strTrim l = "----" then [l, "", seeLine imp] else [l]) :
    l ∈ L ∨ l = "" ∨ l = seeLine imp := by
  obtain ⟨x, hx, hl⟩ := List.mem_flatMap.mp h
  by_cases hs : strTrim x = "----"
  · rw [if_pos hs] at hl
    rcases List.mem_cons.mp hl with rfl | hl
    · exact Or.inl hx
    rcases List.mem_cons.mp hl with rfl | hl
    · exact Or.inr (Or.inl rfl)
    · exact Or.inr (Or.inr (List.mem_singleton.mp hl))
  · rw [if_neg hs] at hl
    rcases List.mem_singleton.mp hl with rfl
    exact Or.inl hx

theorem sentinelCount_step (c : Option String) (n : String)
    (hn : ∀ ch ∈ n.data, ch ≠ '\n')
    (hc : sentinelCountO c ≤ 1) :
    sentinelCount (addStackImportWithDemarcation c n) ≤ 1 := by
  have hImp : ∀ ch ∈ (importLine n).data, ch ≠ '\n' := importLine_noNL hn
  cases c with
  | none =>
      show sentinelCount ("# Project Instructions\n\n----\n\nSee "
        ++ importLine n ++ ".\n") ≤ 1
      have hlit : ("# Project Instructions\n\n----\n\nSee " : String)
          = "# Project Instructions" ++ "\n\n----\n\nSee " := by decide
      rw [hlit]
      unfold sentinelCount
      rw [rustLines_block "# Project Instructions" hImp, List.countP_append]
      have h1 : (splitLinesAux ("# Project Instructions" : String).data []).map String.mk
          = ["# Project Instructions"] := by decide
      rw [h1]
      have h2 : List.countP (fun l => strTrim l == "----") ["# Project Instructions"] = 0 := by
        decide
      have h3 : List.countP (fun l => strTrim l == "----")
          ["", "----", "", seeLine (importLine n)] = 1 := by
        simp [List.countP_cons, List.countP_nil, empty_not_sentinel, sentinel_trim,
          seeLine_not_sentinel]
      omega
  | some s =>
      show sentinelCount (if strContainsB s (importLine n) = true then s
        else insertWithDemarcation s (importLine n)) ≤ 1
      by_cases hcont : strContainsB s (importLine n) = true
      · rw [if_pos hcont]
        exact hc
      · rw [if_neg hcont]
        unfold insertWithDemarcation
        by_cases hdash : strContainsB s "----" = true
        · rw [if_pos hdash]
          have hne : s ≠ "" := by
            intro h
            subst h
            exact absurd hdash (by decide)
          have hLne : rustLines s ≠ [] := rustLines_ne_nil hne
          have hL'ne : ((rustLines s).flatMap fun l =>
              if strTrim l = "----" then [l, "", seeLine (importLine n)] else [l]) ≠ [] :=
            flatMap_insert_ne_nil (importLine n) _ hLne
          have hL'noNL : ∀ l ∈ ((rustLines s).flatMap fun l =>
              if strTrim l = "----" then [l, "", seeLine (importLine n)] else [l]),
              ∀ ch ∈ l.data, ch ≠ '\n' := by
            intro l hl
            rcases mem_flatMap_insert hl with h1 | h1 | h1
            · exact rustLines_noNL s l h1
            · subst h1
              intro ch hch
              simp at hch
            · subst h1
              exact seeLine_noNL hImp
          unfold sentinelCount
          rw [rustLines_joinNL _ hL'ne hL'noNL]
          have hbase := countP_flatMap_insert (importLine n) (rustLines s)
          have hcs : sentinelCount s ≤ 1 := hc
          unfold sentinelCount at hcs
          by_cases hlast : ((rustLines s).flatMap fun l =>
              if strTrim l = "----" then [l, "", seeLine (importLine n)] else [l]).getLast?
              = some ""
          · rw [if_pos hlast]
            calc (List.dropLast _).countP (fun l => strTrim l == "----")
                ≤ _ := (List.dropLast_sublist _).countP_le _
              _ ≤ 1 := by rw [hbase]; exact hcs
          · rw [if_neg hlast, hbase]
            exact hcs
        · rw [if_neg hdash]
          unfold sentinelCount
          rw [rustLines_block (strTrim s) hImp, List.countP_append]
          have h0 : (List.countP (fun l => strTrim l == "----")
              ((splitLinesAux (strTrim s).data []).map String.mk)) = 0 := by
            rw [List.countP_eq_zero]
            intro l hl
            obtain ⟨raw, hraw, rfl⟩ := List.mem_map.mp hl
            simp only [beq_iff_eq]
            intro hsent
            have hinf1 : ['-', '-', '-', '-'] <:+: raw := strTrim_sentinel_occurs hsent
            have hinf2 : raw <:+: (strTrim s).data := by
              simpa using mem_splitLinesAux_occurs (strTrim s).data [] raw hraw
            have hinf3 : (strTrim s).data <:+: s.data := trimChars_occurs s.data
            have hall : (("----" : String).data) <:+: s.data :=
              hinf1.trans (hinf2.trans hinf3)
            exact hdash (strContainsB_iff.mpr hall)
          have h3 : List.countP (fun l => strTrim l == "----")
              ["", "----", "", seeLine (importLine n)] = 1 := by
            simp [List.countP_cons, List.countP_nil, empty_not_sentinel, sentinel_trim,
              seeLine_not_sentinel]
          omega

/-- Invariant: a sequence of demarcated applies never pushes the sentinel
count above one. -/
theorem applySeq_sentinel (names : List String) :
    ∀ c, (∀ n ∈ names, ∀ ch ∈ n.data, ch ≠ '\n') → sentinelCountO c ≤ 1 →
      sentinelCountO (applySeq c names) ≤ 1 := by
  induction names with
  | nil =>
      intro c _ hc
      exact hc
  | cons n rest ih =>
      intro c hn hc
      show sentinelCountO (applySeq (some (addStackImportWithDemarcation c n)) rest) ≤ 1
      exact ih _ (fun m hm => hn m (List.mem_cons_of_mem _ hm))
        (sentinelCount_step c n (hn n (List.mem_cons_self _ _)) hc)

/-! ### The shape of the managed file, and cleanup -/

/-- `cleanup_demarcated_imports` on an optional file: a missing file is
left missing (the function returns early). -/
def cleanupFile : Option String → Option String
  | none => none
  | some s => some (cleanupDemarcatedImports s)

/-- After at least one demarcated apply from a clean start the managed
file decomposes into a fixed preserved prefix `P`, the sentinel line, and
the managed suffix, and its final line is nonempty. -/
def GoodState (P : List String) (s : String) : Prop :=
  (∃ suffix, rustLines s = P ++ "----" :: suffix) ∧
    (rustLines s).getLast? ≠ some ""

theorem flatMap_insert_sentinel_free {imp : String} {P : List String}
    (hP : ∀ l ∈ P, strTrim l ≠ "----") :
    (P.flatMap fun l => if strTrim l = "----" then [l, "", seeLine imp] else [l]) = P := by
  induction P with
  | nil => rfl
  | cons x tail ih =>
      rw [List.flatMap_cons, if_neg (hP x (List.mem_cons_self _ _)),
        ih fun l hl => hP l (List.mem_cons_of_mem _ hl)]
      rfl

theorem flatMap_insert_last {imp : String} :
    ∀ (L : List String), L.getLast? ≠ some "" →
      ((L.flatMap fun l => if strTrim l = "----" then [l, "", seeLine imp] else [l]).getLast?
        ≠ some "") := by
  intro L
  induction L with
  | nil =>
      intro _
      simp
  | cons x tail ih =>
      intro hlast
      cases tail with
      | nil =>
          rw [List.flatMap_cons, List.flatMap_nil, List.append_nil]
          have hx : x ≠ "" := by simpa using hlast
          by_cases h : strTrim x = "----"
          · rw [if_pos h]
            simpa using seeLine_ne_empty imp
          · rw [if_neg h]
            simpa using hx
      | cons y ys =>
          rw [List.flatMap_cons]
          have htail_ne : ((y :: ys).flatMap fun l =>
              if strTrim l = "----" then [l, "", seeLine imp] else [l]) ≠ [] :=
            flatMap_insert_ne_nil imp _ (by simp)
          rw [List.getLast?_append_of_ne_nil _ htail_ne]
          exact ih (by simpa [List.getLast?_cons_cons] using hlast)

theorem step_good {P : List String} (hPfree : ∀ l ∈ P, strTrim l ≠ "----")
    {s : String} (n : String) (hn : ∀ ch ∈ n.data, ch ≠ '\n')
    (hgs : GoodState P s) :
    GoodState P (addStackImportWithDemarcation (some s) n) := by
  obtain ⟨⟨suffix, hlines⟩, hlast⟩ := hgs
  have hImp := importLine_noNL hn
  show GoodState P (if strContainsB s (importLine n) = true then s
    else insertWithDemarcation s (importLine n))
  by_cases hcont : strContainsB s (importLine n) = true
  · rw [if_pos hcont]
    exact ⟨⟨suffix, hlines⟩, hlast⟩
  · rw [if_neg hcont]
    unfold insertWithDemarcation
    have hdash : strContainsB s "----" = true := by
      apply strContainsB_iff.mpr
      have hmem : ("----" : String) ∈ rustLines s := by
        rw [hlines]
        simp
      exact mem_rustLines_occurs hmem
    rw [if_pos hdash]
    have hLne : rustLines s ≠ [] := by
      rw [hlines]
      simp
    have hne : ((rustLines s).flatMap fun l =>
        if strTrim l = "----" then [l, "", seeLine (importLine n)] else [l]) ≠ [] :=
      flatMap_insert_ne_nil _ _ hLne
    have hnoNL : ∀ l ∈ ((rustLines s).flatMap fun l =>
        if strTrim l = "----" then [l, "", seeLine (importLine n)] else [l]),
        ∀ ch ∈ l.data, ch ≠ '\n' := by
      intro l hl
      rcases mem_flatMap_insert hl with h1 | h1 | h1
      · exact rustLines_noNL s l h1
      · subst h1
        intro ch hch
        simp at hch
      · subst h1
        exact seeLine_noNL hImp
    have hlastL' : ((rustLines s).flatMap fun l =>
        if strTrim l = "----" then [l, "", seeLine (importLine n)] else [l]).getLast?
        ≠ some "" := flatMap_insert_last _ hlast
    have hround := rustLines_joinNL _ hne hnoNL
    rw [if_neg hlastL'] at hround
    have hL' : ((rustLines s).flatMap fun l =>
        if strTrim l = "----" then [l, "", seeLine (importLine n)] else [l])
        = P ++ "----" :: "" :: seeLine (importLine n) :: (suffix.flatMap fun l =>
            if strTrim l = "----" then [l, "", seeLine (importLine n)] else [l]) := by
      rw [hlines, List.flatMap_append, flatMap_insert_sentinel_free hPfree,
        List.flatMap_cons, if_pos sentinel_trim]
      simp
    constructor
    · rw [hround, hL']
      exact ⟨_, rfl⟩
    · rw [hround]
      exact hlastL'

theorem cleanupTake_pre_sentinel {P : List String} (hP : ∀ l ∈ P, strTrim l ≠ "----")
    {sl : String} (hsl : strTrim sl = "----") (suffix : List String) :
    cleanupTake (P ++ sl :: suffix) = P ++ [sl] := by
  induction P with
  | nil => simp [cleanupTake, hsl]
  | cons x tail ih =>
      rw [List.cons_append, cleanupTake, if_neg (hP x (List.mem_cons_self _ _)),
        ih fun l hl => hP l (List.mem_cons_of_mem _ hl)]
      rfl

theorem cleanup_of_good {P : List String} (hPfree : ∀ l ∈ P, strTrim l ≠ "----")
    {s : String} (hgs : GoodState P s) :
    cleanupDemarcatedImports s = joinNL (P ++ ["----"]) := by
  obtain ⟨⟨suffix, hlines⟩, _⟩ := hgs
  unfold cleanupDemarcatedImports
  have hdash : strContainsB s "----" = true := by
    apply strContainsB_iff.mpr
    have hmem : ("----" : String) ∈ rustLines s := by
      rw [hlines]
      simp
    exact mem_rustLines_occurs hmem
  rw [if_pos hdash, hlines, cleanupTake_pre_sentinel hPfree sentinel_trim]

theorem cleanupTake_subset : ∀ (L : List String) (l : String), l ∈ cleanupTake L → l ∈ L := by
  intro L
  induction L with
  | nil =>
      intro l hl
      simpa [cleanupTake] using hl
  | cons x tail ih =>
      intro l hl
      rw [cleanupTake] at hl
      by_cases h : strTrim x = "----"
      · rw [if_pos h] at hl
        rcases List.mem_singleton.mp hl with rfl
        exact List.mem_cons_self _ _
      · rw [if_neg h] at hl
        rcases List.mem_cons.mp hl with rfl | hl
        · exact List.mem_cons_self _ _
        · exact List.mem_cons_of_mem _ (ih l hl)

theorem cleanupTake_decomp :
    ∀ (L : List String), (∃ l ∈ L, strTrim l = "----") →
      ∃ pre sl, cleanupTake L = pre ++ [sl] ∧ strTrim sl = "----" ∧
        ∀ l ∈ pre, strTrim l ≠ "----" := by
  intro L
  induction L with
  | nil =>
      rintro ⟨l, hl, -⟩
      simp at hl
  | cons x tail ih =>
      rintro ⟨l, hl, hsent⟩
      by_cases hx : strTrim x = "----"
      · exact ⟨[], x, by simp [cleanupTake, hx], hx, by simp⟩
      · have hex : ∃ l ∈ tail, strTrim l = "----" := by
          rcases List.mem_cons.mp hl with rfl | h
          · exact absurd hsent hx
          · exact ⟨l, h, hsent⟩
        obtain ⟨pre, sl, h1, h2, h3⟩ := ih hex
        refine ⟨x :: pre, sl, by simp [cleanupTake, hx, h1], h2, ?_⟩
        intro l' hl'
        rcases List.mem_cons.mp hl' with rfl | h'
        · exact hx
        · exact h3 l' h'

theorem cleanup_idem_of_sentinel {c : String}
    (h : ∃ l ∈ rustLines c, strTrim l = "----") :
    cleanupDemarcatedImports (cleanupDemarcatedImports c) = cleanupDemarcatedImports c := by
  obtain ⟨pre, sl, htake, hsl, hpre⟩ := cleanupTake_decomp (rustLines c) h
  obtain ⟨l0, hl0, hsent0⟩ := h
  have hdash : strContainsB c "----" = true := by
    apply strContainsB_iff.mpr
    exact (strTrim_sentinel_occurs hsent0).trans (mem_rustLines_occurs hl0)
  have hclean : cleanupDemarcatedImports c = joinNL (pre ++ [sl]) := by
    unfold cleanupDemarcatedImports
    rw [if_pos hdash, htake]
  rw [hclean]
  have hsub : ∀ l ∈ pre ++ [sl], l ∈ rustLines c := by
    intro l hl
    exact cleanupTake_subset _ _ (htake ▸ hl)
  have hske : sl ≠ "" := fun he => empty_not_sentinel (he ▸ hsl)
  have hnoNL : ∀ l ∈ pre ++ [sl], ∀ ch ∈ l.data, ch ≠ '\n' :=
    fun l hl => rustLines_noNL c l (hsub l hl)
  have hlines2 : rustLines (joinNL (pre ++ [sl])) = pre ++ [sl] := by
    rw [rustLines_joinNL _ (by simp) hnoNL, if_neg ?_]
    rw [List.getLast?_concat]
    simpa using hske
  unfold cleanupDemarcatedImports
  rw [if_pos ?_, hlines2, cleanupTake_pre_sentinel hpre hsl]
  apply strContainsB_iff.mpr
  have hmem : sl ∈ rustLines (joinNL (pre ++ [sl])) := by
    rw [hlines2]
    simp
  exact (strTrim_sentinel_occurs hsl).trans (mem_rustLines_occurs hmem)

/-! ### Joining line lists back into contents -/

/-- `join("\n")` on the character level. -/
def joinData : List (List Char) → List Char
  | [] => []
  | [l] => l
  | l :: l2 :: rest => l ++ '\n' :: joinData (l2 :: rest)

theorem joinNL_data_map : ∀ (ls : List (List Char)),
    (joinNL (ls.map String.mk)).data = joinData ls := by
  intro ls
  induction ls with
  | nil => rfl
  | cons l tail ih =>
      cases tail with
      | nil => rfl
      | cons l2 rest =>
          rw [List.map_cons, List.map_cons, data_joinNL_cons]
          rw [List.map_cons] at ih
          rw [ih]
          rfl

theorem joinData_split : ∀ (T acc : List Char),
    joinData (splitLinesAux T acc) = acc.reverse ++ T := by
  intro T
  induction T with
  | nil =>
      intro acc
      simp [splitLinesAux, joinData]
  | cons c T' ih =>
      intro acc
      by_cases hc : c = '\n'
      · subst hc
        rw [splitLinesAux, if_pos rfl]
        obtain ⟨x, xs, hx⟩ : ∃ x xs, splitLinesAux T' [] = x :: xs := by
          rcases hsp : splitLinesAux T' [] with _ | ⟨x, xs⟩
          · exact absurd hsp (splitLinesAux_ne_nil T' [])
          · exact ⟨x, xs, rfl⟩
        rw [hx, joinData, ← hx, ih []]
        simp
      · rw [splitLinesAux, if_neg hc, ih (c :: acc)]
        simp

theorem joinData_concat : ∀ (ls : List (List Char)) (x : List Char), ls ≠ [] →
    joinData (ls ++ [x]) = joinData ls ++ '\n' :: x := by
  intro ls
  induction ls with
  | nil =>
      intro x h
      exact absurd rfl h
  | cons a tail ih =>
      intro x _
      cases tail with
      | nil => rfl
      | cons b rest =>
          show joinData (a :: (b :: rest ++ [x])) = _
          rw [show (a :: (b :: rest ++ [x])) = a :: ((b :: rest) ++ [x]) from rfl]
          rw [show joinData (a :: ((b :: rest) ++ [x]))
            = a ++ '\n' :: joinData ((b :: rest) ++ [x]) from rfl]
          rw [ih x (by simp), joinData]
          simp

theorem joinNL_trim_block (s : String) :
    joinNL ((splitLinesAux (strTrim s).data []).map String.mk ++ ["", "----"])
      = strTrim s ++ "\n\n----" := by
  apply String.ext
  have h1 : ((splitLinesAux (strTrim s).data []).map String.mk ++ ["", "----"])
      = (splitLinesAux (strTrim s).data [] ++ [[], ['-', '-', '-', '-']]).map String.mk := by
    rw [List.map_append]
    rfl
  rw [h1, joinNL_data_map]
  rw [show (splitLinesAux (strTrim s).data [] ++ [[], ['-', '-', '-', '-']])
    = (splitLinesAux (strTrim s).data [] ++ [([] : List Char)]) ++ [['-', '-', '-', '-']]
    from by simp]
  rw [joinData_concat _ _ (by simp),
    joinData_concat _ _ (splitLinesAux_ne_nil _ _), joinData_split]
  simp [String.data_append]

/-! ### Establishing the good state from a clean start -/

theorem trim_split_sentinel_free (s : String) (hdash : strContainsB s "----" = false) :
    ∀ l ∈ (splitLinesAux (strTrim s).data []).map String.mk ++ [""],
      strTrim l ≠ "----" := by
  intro l hl
  rcases List.mem_append.mp hl with hl | hl
  · obtain ⟨raw, hraw, rfl⟩ := List.mem_map.mp hl
    intro hsent
    have hinf1 : ['-', '-', '-', '-'] <:+: raw := strTrim_sentinel_occurs hsent
    have hinf2 : raw <:+: (strTrim s).data := by
      simpa using mem_splitLinesAux_occurs (strTrim s).data [] raw hraw
    have hinf3 : (strTrim s).data <:+: s.data := trimChars_occurs s.data
    have hall : (("----" : String).data) <:+: s.data := hinf1.trans (hinf2.trans hinf3)
    rw [strContainsB_iff.mpr hall] at hdash
    exact Bool.noConfusion hdash
  · rcases List.mem_singleton.mp hl with rfl
    exact empty_not_sentinel

theorem first_apply_none (n : String) (hn : ∀ ch ∈ n.data, ch ≠ '\n') :
    GoodState ["# Project Instructions", ""] (addStackImportWithDemarcation none n) := by
  have hImp := importLine_noNL hn
  show GoodState _ ("# Project Instructions\n\n----\n\nSee " ++ importLine n ++ ".\n")
  have hlit : ("# Project Instructions\n\n----\n\nSee " : String)
      = "# Project Instructions" ++ "\n\n----\n\nSee " := by decide
  rw [hlit]
  have hlines := rustLines_block "# Project Instructions" hImp
  have h1 : (splitLinesAux ("# Project Instructions" : String).data []).map String.mk
      = ["# Project Instructions"] := by decide
  rw [h1] at hlines
  constructor
  · rw [hlines]
    exact ⟨["", seeLine (importLine n)], by simp⟩
  · rw [hlines, List.getLast?_append_of_ne_nil _ (by simp)]
    have h2 : (["", "----", "", seeLine (importLine n)] : List String).getLast?
        = some (seeLine (importLine n)) := by simp
    rw [h2]
    simpa using seeLine_ne_empty (importLine n)

theorem first_apply_some (s n : String) (hn : ∀ ch ∈ n.data, ch ≠ '\n')
    (hdash : strContainsB s "----" = false)
    (himp : strContainsB s (importLine n) = false) :
    GoodState ((splitLinesAux (strTrim s).data []).map String.mk ++ [""])
      (addStackImportWithDemarcation (some s) n) := by
  have hImp := importLine_noNL hn
  show GoodState _ (if strContainsB s (importLine n) = true then s
    else insertWithDemarcation s (importLine n))
  rw [if_neg (by simp [himp])]
  unfold insertWithDemarcation
  rw [if_neg (by simp [hdash])]
  have hlines := rustLines_block (strTrim s) hImp
  constructor
  · rw [hlines]
    exact ⟨["", seeLine (importLine n)], by simp⟩
  · rw [hlines]
    have hne2 : ((splitLinesAux (strTrim s).data []).map String.mk
        ++ ["", "----", "", seeLine (importLine n)]).getLast?
        = some (seeLine (importLine n)) := by
      rw [List.getLast?_append_of_ne_nil _ (by simp)]
      simp
    rw [hne2]
    simpa using seeLine_ne_empty (importLine n)

theorem applySeq_good {P : List String} (hPfree : ∀ l ∈ P, strTrim l ≠ "----") :
    ∀ (names : List String) (s : String),
      (∀ n ∈ names, ∀ ch ∈ n.data, ch ≠ '\n') → GoodState P s →
      ∃ r, applySeq (some s) names = some r ∧ GoodState P r := by
  intro names
  induction names with
  | nil =>
      intro s _ hgs
      exact ⟨s, rfl, hgs⟩
  | cons n rest ih =>
      intro s hn hgs
      show ∃ r, applySeq (some (addStackImportWithDemarcation (some s) n)) rest
        = some r ∧ GoodState P r
      exact ih _ (fun m hm => hn m (List.mem_cons_of_mem _ hm))
        (step_good hPfree n (hn n (List.mem_cons_self _ _)) hgs)

theorem cleanup_applySeq_none (n : String) (rest : List String)
    (hn : ∀ m ∈ n :: rest, ∀ ch ∈ m.data, ch ≠ '\n') :
    cleanupFile (applySeq none (n :: rest)) = some "# Project Instructions\n\n----" := by
  have hP : ∀ l ∈ (["# Project Instructions", ""] : List String), strTrim l ≠ "----" := by
    decide
  obtain ⟨r, hr, hgood⟩ := applySeq_good hP rest _
    (fun m hm => hn m (List.mem_cons_of_mem _ hm))
    (first_apply_none n (hn n (List.mem_cons_self _ _)))
  show cleanupFile (applySeq (some (addStackImportWithDemarcation none n)) rest) = _
  rw [hr]
  show some (cleanupDemarcatedImports r) = _
  rw [cleanup_of_good hP hgood]
  have hj : joinNL (["# Project Instructions", ""] ++ ["----"])
      = "# Project Instructions\n\n----" := by decide
  rw [hj]

theorem cleanup_applySeq_some (c n : String) (rest : List String)
    (hn : ∀ m ∈ n :: rest, ∀ ch ∈ m.data, ch ≠ '\n')
    (hdash : strContainsB c "----" = false)
    (himp : strContainsB c (importLine n) = false) :
    cleanupFile (applySeq (some c) (n :: rest)) = some (strTrim c ++ "\n\n----") := by
  have hP : ∀ l ∈ (splitLinesAux (strTrim c).data []).map String.mk ++ [""],
      strTrim l ≠ "----" := trim_split_sentinel_free c hdash
  obtain ⟨r, hr, hgood⟩ := applySeq_good hP rest _
    (fun m hm => hn m (List.mem_cons_of_mem _ hm))
    (first_apply_some c n (hn n (List.mem_cons_self _ _)) hdash himp)
  show cleanupFile (applySeq (some (addStackImportWithDemarcation (some c) n)) rest) = _
  rw [hr]
  show some (cleanupDemarcatedImports r) = _
  rw [cleanup_of_good hP hgood]
  have hsh : ((splitLinesAux (strTrim c).data []).map String.mk ++ [""]) ++ ["----"]
      = (splitLinesAux (strTrim c).data []).map String.mk ++ ["", "----"] := by simp
  rw [hsh, joinNL_trim_block]

/-! ## Permission scope generator (`src/core/permission_generator.rs`) -/

/-- The `permissions` object produced by `generate_permission_config`
(lines 33-62), as its two rule lists. -/
structure PermConfig where
  allow : List String
  deny : List String
deriving DecidableEq

/-- The `allow` list of `generate_permission_config`, instantiated with
the canonicalized main and feature directory paths. -/
def allowRules (m f : String) : List String :=
  ["Read(" ++ m ++ "/*)", "Read(" ++ f ++ "/*)",
   "Bash(cd:" ++ m ++ ")", "Bash(cd:" ++ f ++ ")",
   "Bash(git:*)", "Bash(stacks:cleanup)", "Bash(touch:*)", "Bash(mkdir:*)",
   "Bash(echo:*)", "Bash(cat:*)", "Bash(vim:*)", "Bash(nano:*)",
   "Bash(cp:*)", "Bash(mv:*)", "Bash(rm:*)"]

/-- The `deny` list of `generate_permission_config` (lines 52-60): every
rule is built from the canonicalized main directory path only. -/
def denyRules (m : String) : List String :=
  ["Write(" ++ m ++ "/*)", "Edit(" ++ m ++ "/*)", "MultiEdit(" ++ m ++ "/*)",
   "DeleteFile(" ++ m ++ "/*)", "Bash(rm:" ++ m ++ "/*)", "Bash(mv:" ++ m ++ "/*)",
   "Bash(cp:*/" ++ m ++ "/*)"]

/-- `generate_permission_config` (lines 22-65): canonicalize both
directories (failing when either cannot be resolved) and build the fixed
allow and deny lists. -/
def generatePermissionConfig (canon : String → Option String)
    (mainDir featureDir : String) : Option PermConfig :=
  match canon mainDir, canon featureDir with
  | some m, some f => some ⟨allowRules m f, denyRules m⟩
  | _, _ => none

/-! ## Capability requirement parsing (`src/core/mcp_validator.rs`) -/

/-- `McpServer` from `src/core/mcp_validator.rs` lines 8-16. -/
structure McpServer where
  name : String
  transport : String
  command : Option String
  url : Option String
  env : Option (List (String × String))
deriving DecidableEq

/-- `serde_json::Value::get(key)`: field access, `None` on non-objects. -/
def getField (config : Value) (k : String) : Option Value :=
  match config with
  | Value.obj m => lookupA m k
  | _ => none

/-- `.and_then(|v| v.as_str())`. -/
def asStr : Option Value → Option String
  | some (Value.str s) => some s
  | _ => none

/-- `v.as_str().unwrap_or("")`. -/
def asStrD : Value → String
  | Value.str s => s
  | _ => ""

/-- `parse_mcp_server_config` (lines 83-112): transport defaults to
`"stdio"`, command and url parse as options, the env map keeps its keys
with non-string values collapsing to `""`; the function is infallible. -/
def parseMcpServerConfig (name : String) (config : Value) : Except String McpServer :=
  Except.ok {
    name := name
    transport := (asStr (getField config "transport")).getD "stdio"
    command := asStr (getField config "command")
    url := asStr (getField config "url")
    env := match getField config "env" with
      | some (Value.obj m) => some (m.map fun p => (p.1, asStrD p.2))
      | _ => none }

/-- The `mcp.servers` loop of `extract_mcp_servers_from_settings`
(lines 57-64): parse every entry of the servers map. -/
def parseAllServers (entries : List (String × Value)) : List (Except String McpServer) :=
  entries.map fun p => parseMcpServerConfig p.1 p.2

/-! ## The claims -/

/-- C1: Applying the same stack a second time after a successful apply
produces an identical workspace state: re-running the per-stack symlink
loop on its own output is a no-op returning the same directory; for each
file whose target is an existing resolvable link, the operation is a no-op
when the link's canonical destination equals the source's canonical
destination and otherwise replaces the link (remove, then recreate); and
re-merging the same stack settings leaves the merged settings value
unchanged. -/
theorem claim1_apply_idempotent :
    (∀ (canon : String → Option String) (sn : String) (files : List (String × String))
        (d d1 : List (String × Entry)),
      canonIdem canon → (files.map Prod.fst).Nodup →
      applyStack canon sn files d = (none, d1) →
      applyStack canon sn files d1 = (none, d1)) ∧
    (∀ (canon : String → Option String) (d : List (String × Entry))
        (sn fn src L cs : String),
      lookupA d (prefixedName sn fn) = some (Entry.symlink L) →
      (canon L).isSome → canon src = some cs →
      createSymlinkWithPrefix canon d sn fn src
        = if (canon L).getD L = cs then (none, d)
          else (none, eraseKey d (prefixedName sn fn)
            ++ [(prefixedName sn fn, Entry.symlink cs)])) ∧
    (∀ a b : Value, wfV a = true → wfV b = true →
      deepMerge (deepMerge a b) b = deepMerge a b) := by
  refine ⟨?_, ?_, ?_⟩
  · intro canon sn files d d1 hci hnd h
    exact applyStack_reapply hci files d d1 hnd h
  · intro canon d sn fn src L cs h1 h2 h3
    exact createSymlink_replace h1 h2 h3
  · intro a b ha hb
    exact dm_idem b a ha hb

/-- Witness for C1 at a concrete stack: a fresh apply of one agent file
over an empty directory, re-applied over its own output; the no-op branch
of the per-file rule; and a concrete settings re-merge. -/
theorem claim1_witness :
    applyStack some "alpha" [("agent.md", "/src/agent.md")]
        [("alpha_agent.md", Entry.symlink "/src/agent.md")]
      = (none, [("alpha_agent.md", Entry.symlink "/src/agent.md")])
    ∧ createSymlinkWithPrefix some
        [("alpha_agent.md", Entry.symlink "/src/agent.md")] "alpha" "agent.md" "/src/agent.md"
      = (none, [("alpha_agent.md", Entry.symlink "/src/agent.md")])
    ∧ deepMerge
        (deepMerge (Value.obj []) (Value.obj [("a", Value.num 1)]))
        (Value.obj [("a", Value.num 1)])
      = deepMerge (Value.obj []) (Value.obj [("a", Value.num 1)]) := by
  refine ⟨?_, ?_, ?_⟩
  · exact claim1_apply_idempotent.1 some "alpha" [("agent.md", "/src/agent.md")] []
      _ (fun _ _ _ => rfl) (by decide) (by decide)
  · exact (claim1_apply_idempotent.2.1 some
      [("alpha_agent.md", Entry.symlink "/src/agent.md")] "alpha" "agent.md"
      "/src/agent.md" "/src/agent.md" "/src/agent.md" (by decide) (by decide) rfl).trans
      (by decide)
  · exact claim1_apply_idempotent.2.2 (Value.obj []) (Value.obj [("a", Value.num 1)])
      (by decide) (by decide)

/-- C2: the claim states that `remove(stack_name)` deletes every symlink
whose filename starts with the stack prefix, best-effort.  The code's walk
filter `file_type().is_file() && path.is_symlink()` is unsatisfiable with
links not followed, so the removal loop never runs and every directory is
returned unchanged — in particular the failing input, an agents directory
holding the prefixed symlink `alpha_agent.md`, keeps its link. -/
theorem claim2_remove_removes_nothing :
    (∀ (dir : List (String × Entry)) (sn : String), removeStackSymlinks dir sn = dir)
    ∧ removeStackSymlinks
        [("alpha_agent.md", Entry.symlink "/stacks/alpha/.claude/agents/agent.md")] "alpha"
      = [("alpha_agent.md", Entry.symlink "/stacks/alpha/.claude/agents/agent.md")] := by
  refine ⟨removeStackSymlinks_eq_self, removeStackSymlinks_eq_self _ _⟩

/-- C3: a would-be symlink target occupied by a regular file makes the
per-file operation fail with a Conflict error naming the occupied path and
leaves the directory untouched; the whole apply loop preserves every
pre-existing regular file, and fails whenever one of its targets is
occupied by a regular file. -/
theorem claim3_conflict_on_regular_file :
    (∀ (canon : String → Option String) (d : List (String × Entry)) (sn fn src : String),
      lookupA d (prefixedName sn fn) = some Entry.file →
      createSymlinkWithPrefix canon d sn fn src
        = (some (SymErr.conflict (prefixedName sn fn)), d)) ∧
    (∀ (canon : String → Option String) (sn : String)
        (files : List (String × String)) (d : List (String × Entry)) (q : String),
      lookupA d q = some Entry.file →
      lookupA (applyStack canon sn files d).2 q = some Entry.file) ∧
    (∀ (canon : String → Option String) (sn : String)
        (files : List (String × String)) (d : List (String × Entry)) (fn src : String),
      (fn, src) ∈ files → lookupA d (prefixedName sn fn) = some Entry.file →
      (applyStack canon sn files d).1 ≠ none) := by
  refine ⟨?_, ?_, ?_⟩
  · intro canon d sn fn src h
    exact createSymlink_conflict src h
  · intro canon sn files d q h
    exact applyStack_file_preserved files d q h
  · intro canon sn files d fn src hm h
    exact applyStack_fails files d fn src hm h

/-- Witness for C3: a directory whose target name holds a regular file;
the operation reports the Conflict naming that path, the file survives the
loop, and the loop fails. -/
theorem claim3_witness :
    createSymlinkWithPrefix some [("alpha_agent.md", Entry.file)]
        "alpha" "agent.md" "/src/agent.md"
      = (some (SymErr.conflict "alpha_agent.md"), [("alpha_agent.md", Entry.file)])
    ∧ lookupA (applyStack some "alpha" [("agent.md", "/src/agent.md")]
        [("alpha_agent.md", Entry.file)]).2 "alpha_agent.md" = some Entry.file
    ∧ (applyStack some "alpha" [("agent.md", "/src/agent.md")]
        [("alpha_agent.md", Entry.file)]).1 ≠ none := by
  refine ⟨?_, ?_, ?_⟩
  · exact (claim3_conflict_on_regular_file.1 some [("alpha_agent.md", Entry.file)]
      "alpha" "agent.md" "/src/agent.md" (by decide)).trans (by decide)
  · exact claim3_conflict_on_regular_file.2.1 some "alpha"
      [("agent.md", "/src/agent.md")] [("alpha_agent.md", Entry.file)]
      "alpha_agent.md" (by decide)
  · exact claim3_conflict_on_regular_file.2.2 some "alpha"
      [("agent.md", "/src/agent.md")] [("alpha_agent.md", Entry.file)]
      "agent.md" "/src/agent.md" (by decide) (by decide)

/-- C4: the claim states `apply` then `remove` restores the pre-apply link
set.  On the failing input — an empty directory and a stack with one agent
file — the apply creates `alpha_agent.md`, the removal deletes nothing
(its filter is unsatisfiable), and the resulting link set is nonempty, so
the pre-apply state is not restored. -/
theorem claim4_remove_does_not_restore :
    applyStack some "alpha" [("agent.md", "/src/agent.md")] []
      = (none, [("alpha_agent.md", Entry.symlink "/src/agent.md")])
    ∧ removeStackSymlinks [("alpha_agent.md", Entry.symlink "/src/agent.md")] "alpha"
      = [("alpha_agent.md", Entry.symlink "/src/agent.md")]
    ∧ ([("alpha_agent.md", Entry.symlink "/src/agent.md")] : List (String × Entry)) ≠ [] := by
  refine ⟨by decide, removeStackSymlinks_eq_self _ _, by decide⟩

/-- C5 counterexample: as stated the claim fails — a target array that
already holds a duplicate keeps it, so `merge(merge(T,A),B)` can contain
an element twice: with `T = [1,1]`, `A = B = []` the result is `[1,1]`. -/
theorem claim5_counterexample :
    deepMerge (deepMerge (Value.arr [Value.num 1, Value.num 1]) (Value.arr []))
        (Value.arr [])
      = Value.arr [Value.num 1, Value.num 1]
    ∧ ¬ ([Value.num 1, Value.num 1] : List Value).Nodup := by
  constructor
  · simp [deepMerge, arrayUnion]
  · decide

/-- C5 amended: for a duplicate-free target `T`, `merge(merge(T,A),B)` is
`T` followed by the new-from-`A` elements followed by the new-from-`B`
elements, contains every element of `T`, `A`, `B`, each at most once; and
in the object case (source keys distinct) keys present only in the source
are inserted while keys present in both recurse. -/
theorem claim5_array_union_law :
    (∀ T A B : List Value, T.Nodup →
      deepMerge (deepMerge (Value.arr T) (Value.arr A)) (Value.arr B)
        = Value.arr (T ++ newFrom T A ++ newFrom (T ++ newFrom T A) B)
      ∧ (T ++ newFrom T A ++ newFrom (T ++ newFrom T A) B).Nodup
      ∧ ∀ x, x ∈ T ++ newFrom T A ++ newFrom (T ++ newFrom T A) B
          ↔ (x ∈ T ∨ x ∈ A ∨ x ∈ B)) ∧
    (∀ (t s : List (String × Value)) (k : String) (b : Value),
      (keysOf s).Nodup → lookupA t k = none → lookupA s k = some b →
      lookupA (mergeObj t s) k = some b) ∧
    (∀ (t s : List (String × Value)) (k : String) (a b : Value),
      (keysOf s).Nodup → lookupA t k = some a → lookupA s k = some b →
      lookupA (mergeObj t s) k = some (deepMerge a b)) := by
  refine ⟨?_, ?_, ?_⟩
  · intro T A B hT
    have e1 : arrayUnion T A = T ++ newFrom T A := arrayUnion_eq_append A T
    have e2 : arrayUnion (arrayUnion T A) B
        = T ++ newFrom T A ++ newFrom (T ++ newFrom T A) B := by
      rw [arrayUnion_eq_append B (arrayUnion T A), e1]
    refine ⟨?_, ?_, ?_⟩
    · rw [show deepMerge (Value.arr T) (Value.arr A) = Value.arr (arrayUnion T A)
        from by simp [deepMerge]]
      rw [show deepMerge (Value.arr (arrayUnion T A)) (Value.arr B)
        = Value.arr (arrayUnion (arrayUnion T A) B) from by simp [deepMerge]]
      rw [e2]
    · rw [← e2]
      exact arrayUnion_nodup B (arrayUnion_nodup A hT)
    · intro x
      rw [← e2]
      rw [arrayUnion_mem, arrayUnion_mem]
      tauto
  · intro t s k b hnd ht hs
    exact lookupA_mergeObj_source_only hnd ht hs
  · intro t s k a b hnd ht hs
    exact lookupA_mergeObj_of_both hnd ht hs

/-- Witness for C5 at the spec's scenario: merging the `linting` allow
array then the `testing` allow array into an empty array yields both
entries in order, and the object clauses at concrete objects. -/
theorem claim5_witness :
    deepMerge (deepMerge (Value.arr []) (Value.arr [Value.str "npm run lint"]))
        (Value.arr [Value.str "pytest"])
      = Value.arr [Value.str "npm run lint", Value.str "pytest"]
    ∧ lookupA (mergeObj [] [("deny", Value.str "x")]) "deny" = some (Value.str "x")
    ∧ lookupA (mergeObj [("allow", Value.arr [Value.str "a"])]
        [("allow", Value.arr [Value.str "b"])]) "allow"
      = some (deepMerge (Value.arr [Value.str "a"]) (Value.arr [Value.str "b"])) := by
  refine ⟨?_, ?_, ?_⟩
  · have h := (claim5_array_union_law.1 [] [Value.str "npm run lint"]
      [Value.str "pytest"] (by decide)).1
    rw [h]
    decide
  · exact claim5_array_union_law.2.1 [] [("deny", Value.str "x")] "deny"
      (Value.str "x") (by decide) (by decide) (by decide)
  · exact claim5_array_union_law.2.2 [("allow", Value.arr [Value.str "a"])]
      [("allow", Value.arr [Value.str "b"])] "allow"
      (Value.arr [Value.str "a"]) (Value.arr [Value.str "b"])
      (by decide) (by decide) (by decide)

/-- C6 counterexample: in the demarcated scenario the second stack's
reference is inserted directly below the sentinel, so beta's reference
appears BEFORE alpha's, not after it: beta's line index is smaller. -/
theorem claim6_counterexample :
    addStackImportWithDemarcation (some (addStackImportWithDemarcation none "alpha")) "beta"
      = "# Project Instructions\n\n----\n\nSee @stacks/beta/CLAUDE.md.\n\nSee @stacks/alpha/CLAUDE.md."
    ∧ (rustLines (addStackImportWithDemarcation
          (some (addStackImportWithDemarcation none "alpha")) "beta")).findIdx
        (fun l => strContainsB l (importLine "beta"))
      < (rustLines (addStackImportWithDemarcation
          (some (addStackImportWithDemarcation none "alpha")) "beta")).findIdx
        (fun l => strContainsB l (importLine "alpha")) := by
  constructor
  · decide
  · decide

/-- C6 amended: on an absent file the demarcated apply of `alpha` creates
the header plus sentinel plus alpha's reference; the subsequent apply of
`beta` inserts beta's reference immediately below the sentinel — before
alpha's, which is preserved verbatim below it — with still exactly one
sentinel line. -/
theorem claim6_demarcated_scenario :
    addStackImportWithDemarcation none "alpha"
      = "# Project Instructions\n\n----\n\nSee @stacks/alpha/CLAUDE.md.\n"
    ∧ addStackImportWithDemarcation (some (addStackImportWithDemarcation none "alpha")) "beta"
      = "# Project Instructions\n\n----\n\nSee @stacks/beta/CLAUDE.md.\n\nSee @stacks/alpha/CLAUDE.md."
    ∧ rustLines (addStackImportWithDemarcation
        (some (addStackImportWithDemarcation none "alpha")) "beta")
      = ["# Project Instructions", "", "----", "", "See @stacks/beta/CLAUDE.md.", "",
         "See @stacks/alpha/CLAUDE.md."]
    ∧ sentinelCount (addStackImportWithDemarcation
        (some (addStackImportWithDemarcation none "alpha")) "beta") = 1 := by
  refine ⟨by decide, by decide, by decide, by decide⟩

/-- C7: across any sequence of demarcated applies the sentinel count never
exceeds one (stack names hold no newline, and the starting file has at
most one sentinel line); cleanup after at least one apply from a clean
start yields exactly the pre-demarcation content plus the sentinel line
and nothing after it; and repeated cleanup calls are no-ops once the file
is truncated at a sentinel line. -/
theorem claim7_single_sentinel_and_cleanup :
    (∀ (names : List String) (c : Option String),
      (∀ n ∈ names, ∀ ch ∈ n.data, ch ≠ '\n') → sentinelCountO c ≤ 1 →
      sentinelCountO (applySeq c names) ≤ 1) ∧
    (∀ (n : String) (rest : List String),
      (∀ m ∈ n :: rest, ∀ ch ∈ m.data, ch ≠ '\n') →
      cleanupFile (applySeq none (n :: rest)) = some "# Project Instructions\n\n----") ∧
    (∀ (c n : String) (rest : List String),
      (∀ m ∈ n :: rest, ∀ ch ∈ m.data, ch ≠ '\n') →
      strContainsB c "----" = false → strContainsB c (importLine n) = false →
      cleanupFile (applySeq (some c) (n :: rest)) = some (strTrim c ++ "\n\n----")) ∧
    (∀ c : String, (∃ l ∈ rustLines c, strTrim l = "----") →
      cleanupDemarcatedImports (cleanupDemarcatedImports c) = cleanupDemarcatedImports c) := by
  refine ⟨?_, ?_, ?_, ?_⟩
  · intro names c hn hc
    exact applySeq_sentinel names c hn hc
  · intro n rest hn
    exact cleanup_applySeq_none n rest hn
  · intro c n rest hn hdash himp
    exact cleanup_applySeq_some c n rest hn hdash himp
  · intro c h
    exact cleanup_idem_of_sentinel h

/-- Witness for C7: two applies from an absent file keep one sentinel and
clean up to the bare header plus sentinel; one apply over user content
cleans up to the trimmed content plus sentinel; and cleanup is idempotent
on a file already holding a sentinel line. -/
theorem claim7_witness :
    sentinelCountO (applySeq none ["alpha", "beta"]) ≤ 1
    ∧ cleanupFile (applySeq none ["alpha", "beta"])
      = some "# Project Instructions\n\n----"
    ∧ cleanupFile (applySeq (some "# Mine\n\nKeep this.\n") ["alpha"])
      = some (strTrim "# Mine\n\nKeep this.\n" ++ "\n\n----")
    ∧ cleanupDemarcatedImports (cleanupDemarcatedImports "x\n----\ny")
      = cleanupDemarcatedImports "x\n----\ny" := by
  refine ⟨?_, ?_, ?_, ?_⟩
  · exact claim7_single_sentinel_and_cleanup.1 ["alpha", "beta"] none
      (by decide) (by decide)
  · exact claim7_single_sentinel_and_cleanup.2.1 "alpha" ["beta"] (by decide)
  · exact claim7_single_sentinel_and_cleanup.2.2.1 "# Mine\n\nKeep this.\n" "alpha" []
      (by decide) (by decide) (by decide)
  · exact claim7_single_sentinel_and_cleanup.2.2.2 "x\n----\ny" (by decide)

/-- C8 counterexample: the claim states non-`permissions` keys keep the
settings-merger recursive semantics, but the permission generator's merge
replaces them wholesale: merging `{env:{B:2}}` into existing
`{env:{A:1}}` drops `A`, diverging from the settings merger. -/
theorem claim8_counterexample :
    applyToLocalSettings (some (Value.obj [("env", Value.obj [("A", Value.num 1)])]))
        (Value.obj [("env", Value.obj [("B", Value.num 2)])])
      = Value.obj [("env", Value.obj [("B", Value.num 2)])]
    ∧ deepMerge (Value.obj [("env", Value.obj [("A", Value.num 1)])])
        (Value.obj [("env", Value.obj [("B", Value.num 2)])])
      = Value.obj [("env", Value.obj [("A", Value.num 1), ("B", Value.num 2)])]
    ∧ applyToLocalSettings (some (Value.obj [("env", Value.obj [("A", Value.num 1)])]))
        (Value.obj [("env", Value.obj [("B", Value.num 2)])])
      ≠ deepMerge (Value.obj [("env", Value.obj [("A", Value.num 1)])])
        (Value.obj [("env", Value.obj [("B", Value.num 2)])]) := by
  have h1 : applyToLocalSettings (some (Value.obj [("env", Value.obj [("A", Value.num 1)])]))
      (Value.obj [("env", Value.obj [("B", Value.num 2)])])
      = Value.obj [("env", Value.obj [("B", Value.num 2)])] := by
    simp [applyToLocalSettings, pgDeepMerge, pgMergeObj, lookupA, updateFirst]
  have h2 : deepMerge (Value.obj [("env", Value.obj [("A", Value.num 1)])])
      (Value.obj [("env", Value.obj [("B", Value.num 2)])])
      = Value.obj [("env", Value.obj [("A", Value.num 1), ("B", Value.num 2)])] := by
    simp [deepMerge, mergeObj, lookupA, updateFirst]
  refine ⟨h1, h2, ?_⟩
  rw [h1, h2]
  decide

/-- C8 amended: `apply_to_local_settings` merges the generated config into
the existing settings with the variant policy: keys only in the source are
inserted; for keys present in both, the `permissions` key recurses (with
arrays replaced wholesale by the source array) while every other key takes
the source value wholesale. -/
theorem claim8_variant_merge_policy :
    (∀ (t s : List (String × Value)),
      applyToLocalSettings (some (Value.obj t)) (Value.obj s)
        = Value.obj (pgMergeObj t s)) ∧
    (∀ a b : List Value, pgDeepMerge (Value.arr a) (Value.arr b) = Value.arr b) ∧
    (∀ (t s : List (String × Value)) (a b : Value),
      (keysOf s).Nodup → lookupA t "permissions" = some a →
      lookupA s "permissions" = some b →
      lookupA (pgMergeObj t s) "permissions" = some (pgDeepMerge a b)) ∧
    (∀ (t s : List (String × Value)) (k : String) (a b : Value),
      (keysOf s).Nodup → k ≠ "permissions" → lookupA t k = some a →
      lookupA s k = some b →
      lookupA (pgMergeObj t s) k = some b) ∧
    (∀ (t s : List (String × Value)) (k : String) (b : Value),
      (keysOf s).Nodup → lookupA t k = none → lookupA s k = some b →
      lookupA (pgMergeObj t s) k = some b) := by
  refine ⟨?_, ?_, ?_, ?_, ?_⟩
  · intro t s
    simp [applyToLocalSettings, pgDeepMerge]
  · exact pgDeepMerge_arr
  · intro t s a b hnd ht hs
    exact lookupA_pgMergeObj_perm hnd ht hs
  · intro t s k a b hnd hk ht hs
    exact lookupA_pgMergeObj_other hnd hk ht hs
  · intro t s k b hnd ht hs
    exact lookupA_pgMergeObj_source_only hnd ht hs

/-- Witness for C8 at concrete settings: permissions recurse with the
array replaced wholesale, another key is replaced wholesale, and a fresh
key is inserted. -/
theorem claim8_witness :
    applyToLocalSettings (some (Value.obj [("x", Value.num 1)]))
        (Value.obj [("y", Value.num 2)])
      = Value.obj (pgMergeObj [("x", Value.num 1)] [("y", Value.num 2)])
    ∧ pgDeepMerge (Value.arr [Value.str "old"]) (Value.arr [Value.str "new"])
      = Value.arr [Value.str "new"]
    ∧ lookupA (pgMergeObj [("permissions", Value.arr [Value.str "old"])]
        [("permissions", Value.arr [Value.str "new"])]) "permissions"
      = some (pgDeepMerge (Value.arr [Value.str "old"]) (Value.arr [Value.str "new"]))
    ∧ lookupA (pgMergeObj [("env", Value.num 1)] [("env", Value.num 2)]) "env"
      = some (Value.num 2)
    ∧ lookupA (pgMergeObj [] [("model", Value.str "m")]) "model"
      = some (Value.str "m") := by
  refine ⟨?_, ?_, ?_, ?_, ?_⟩
  · exact claim8_variant_merge_policy.1 [("x", Value.num 1)] [("y", Value.num 2)]
  · exact claim8_variant_merge_policy.2.1 [Value.str "old"] [Value.str "new"]
  · exact claim8_variant_merge_policy.2.2.1 [("permissions", Value.arr [Value.str "old"])]
      [("permissions", Value.arr [Value.str "new"])]
      (Value.arr [Value.str "old"]) (Value.arr [Value.str "new"])
      (by decide) (by decide) (by decide)
  · exact claim8_variant_merge_policy.2.2.2.1 [("env", Value.num 1)] [("env", Value.num 2)]
      "env" (Value.num 1) (Value.num 2) (by decide) (by decide) (by decide) (by decide)
  · exact claim8_variant_merge_policy.2.2.2.2 [] [("model", Value.str "m")] "model"
      (Value.str "m") (by decide) (by decide) (by decide)

/-- C9: for every pair of resolvable directories the generated deny set is
exactly six write/edit/multi-edit/delete-file/remove/move rules plus one
copy rule, all built from the canonicalized main directory only; the deny
set does not depend on the feature directory at all; and in the spec's
scenario no deny rule mentions `/proj-feat`. -/
theorem claim9_feature_never_denied :
    (∀ (canon : String → Option String) (mainDir featureDir m f : String),
      canon mainDir = some m → canon featureDir = some f →
      generatePermissionConfig canon mainDir featureDir
        = some ⟨allowRules m f, denyRules m⟩) ∧
    (∀ (canon : String → Option String) (mainDir f1 f2 : String) (cfg1 cfg2 : PermConfig),
      generatePermissionConfig canon mainDir f1 = some cfg1 →
      generatePermissionConfig canon mainDir f2 = some cfg2 →
      cfg1.deny = cfg2.deny) ∧
    (∀ r ∈ denyRules "/proj", strContainsB r "/proj-feat" = false) ∧
    denyRules "/proj"
      = ["Write(/proj/*)", "Edit(/proj/*)", "MultiEdit(/proj/*)", "DeleteFile(/proj/*)",
         "Bash(rm:/proj/*)", "Bash(mv:/proj/*)", "Bash(cp:*//proj/*)"] := by
  refine ⟨?_, ?_, by decide, by decide⟩
  · intro canon mainDir featureDir m f hm hf
    simp [generatePermissionConfig, hm, hf]
  · intro canon mainDir f1 f2 cfg1 cfg2 h1 h2
    unfold generatePermissionConfig at h1 h2
    cases hm : canon mainDir with
    | none =>
        rw [hm] at h1
        cases h1
    | some m =>
        rw [hm] at h1 h2
        cases hf1 : canon f1 with
        | none =>
            rw [hf1] at h1
            cases h1
        | some x1 =>
            cases hf2 : canon f2 with
            | none =>
                rw [hf2] at h2
                cases h2
            | some x2 =>
                rw [hf1] at h1
                rw [hf2] at h2
                cases h1
                cases h2
                rfl

/-- Witness for C9: a concrete canonicalization oracle on which both
directories resolve; the generated config's deny rules name only the main
directory, and two different feature directories yield the same deny
list. -/
theorem claim9_witness :
    generatePermissionConfig some "/proj" "/proj-feat"
      = some ⟨allowRules "/proj" "/proj-feat", denyRules "/proj"⟩
    ∧ (generatePermissionConfig some "/proj" "/proj-feat").map PermConfig.deny
      = (generatePermissionConfig some "/proj" "/other").map PermConfig.deny := by
  constructor
  · exact claim9_feature_never_denied.1 some "/proj" "/proj-feat" "/proj" "/proj-feat"
      rfl rfl
  · have h1 := claim9_feature_never_denied.1 some "/proj" "/proj-feat" "/proj" "/proj-feat"
      rfl rfl
    have h2 := claim9_feature_never_denied.1 some "/proj" "/other" "/proj" "/other" rfl rfl
    have h3 := claim9_feature_never_denied.2.1 some "/proj" "/proj-feat" "/other" _ _ h1 h2
    rw [h1, h2]
    simpa using h3

/-- C10: parsing an `mcp.servers` entry never fails; an omitted transport
field defaults to `"stdio"`, and an omitted command or url parses as
absent; hence parsing every entry of a servers map succeeds. -/
theorem claim10_mcp_parse_total :
    (∀ (name : String) (config : Value),
      ∃ s, parseMcpServerConfig name config = Except.ok s
        ∧ s.name = name
        ∧ (getField config "transport" = none → s.transport = "stdio")
        ∧ (getField config "command" = none → s.command = none)
        ∧ (getField config "url" = none → s.url = none)) ∧
    (∀ (entries : List (String × Value)), ∀ r ∈ parseAllServers entries,
      ∃ s, r = Except.ok s) := by
  constructor
  · intro name config
    refine ⟨_, rfl, rfl, ?_, ?_, ?_⟩
    · intro h
      show (asStr (getField config "transport")).getD "stdio" = "stdio"
      rw [h]
      rfl
    · intro h
      show asStr (getField config "command") = none
      rw [h]
      rfl
    · intro h
      show asStr (getField config "url") = none
      rw [h]
      rfl
  · intro entries r hr
    obtain ⟨p, hp, rfl⟩ := List.mem_map.mp hr
    exact ⟨_, rfl⟩

/-- Witness for C10: a server entry whose config omits transport, command
and url parses successfully with transport `"stdio"` and absent command
and url. -/
theorem claim10_witness :
    (∃ s, parseMcpServerConfig "postgres" (Value.obj [("env", Value.null)])
        = Except.ok s
      ∧ s.name = "postgres"
      ∧ (getField (Value.obj [("env", Value.null)]) "transport" = none →
          s.transport = "stdio")
      ∧ (getField (Value.obj [("env", Value.null)]) "command" = none →
          s.command = none)
      ∧ (getField (Value.obj [("env", Value.null)]) "url" = none → s.url = none))
    ∧ getField (Value.obj [("env", Value.null)]) "transport" = none
    ∧ parseMcpServerConfig "postgres" (Value.obj [("env", Value.null)])
      = Except.ok ⟨"postgres", "stdio", none, none, none⟩ := by
  exact ⟨claim10_mcp_parse_total.1 "postgres" (Value.obj [("env", Value.null)]),
    by decide, rfl⟩

end StackEngine
